import Mathlib

/-!
# A shallow embedding of `binary_segmentation.py`

This file embeds the four analytical operations of the binary-segmentation
module — the depth-first flood-fill labeler (`region_growing_alg`), the
breadth-first flood-fill labeler (`region_grow_bfs`), the two-pass
union-find labeler (`seq_label_alg`) and the Zhang–Suen thinning routine
(`skeletonization`) — as executable Lean definitions, and proves the
specification properties about them.

Conventions:
* a raster is a height, a width, and a total function `Int → Int → Nat`
  (Python/numpy integers are unbounded, and the source forms indices such
  as `i - 1` that can be negative before the bounds check, so indices are
  modelled as `Int`);
* mutation of an array becomes a functional update;
* Python `dict` lookup that can raise `KeyError`, and recursion whose
  termination is a program invariant, are modelled with `Option` and fuel.
-/

namespace BinSeg

/-- A position `(i, j)` in a raster, row first. -/
abbrev Pos := Int × Int

/-- A 2-D grid of natural numbers with an explicit shape, indexed by
integers (out-of-range reads are possible in the model but the embedded
code only reads behind the same bounds checks the source performs). -/
structure Raster where
  h : Nat
  w : Nat
  data : Int → Int → Nat

/-- Build a raster from a rectangular list of rows (row-major). -/
def ofRows (l : List (List Nat)) : Raster :=
  ⟨l.length, l.headI.length, fun i j => (l.getD i.toNat []).getD j.toNat 0⟩

/-- The input is a binary raster: every in-range cell holds `0` or `1`. -/
def Binary (R : Raster) : Prop :=
  ∀ i ∈ Finset.range R.h, ∀ j ∈ Finset.range R.w,
    R.data (i : Int) (j : Int) = 0 ∨ R.data (i : Int) (j : Int) = 1

instance (R : Raster) : Decidable (Binary R) := by
  unfold Binary; infer_instance

/-! ## Thinning engine (`skeletonization`)

`image = np.pad(image, (1,1), mode='constant', constant_values=(0,0))`
adds one border cell of value `0` on each side of each axis. -/

/-- The 1-cell zero padding of a raster (`np.pad(image, (1,1), ...)`). -/
def pad (R : Raster) : Raster :=
  ⟨R.h + 2, R.w + 2,
    fun i j =>
      if 1 ≤ i ∧ i ≤ (R.h : Int) ∧ 1 ≤ j ∧ j ≤ (R.w : Int) then
        R.data (i - 1) (j - 1)
      else 0⟩

/-- `get_neighbors(i, j)`: the 8 neighbours `[P2, P3, P4, P5, P6, P7, P8, P9]`
of `(i, j)` read clockwise starting north, exactly in the source's order. -/
def get_neighbors (f : Int → Int → Nat) (i j : Int) : List Nat :=
  [f (i - 1) j, f (i - 1) (j + 1), f i (j + 1), f (i + 1) (j + 1),
   f (i + 1) j, f (i + 1) (j - 1), f i (j - 1), f (i - 1) (j - 1)]

/-- Count of adjacent pairs `(0, 1)` in a list (the source's
`for n1, n2 in zip(n, n[1:]): if n1 == 0 and n2 == 1`). -/
def countTrans : List Nat → Nat
  | a :: b :: t => (if a = 0 ∧ b = 1 then 1 else 0) + countTrans (b :: t)
  | _ => 0

/-- `get_transitions(neighbors)`.  In the source, `neighbors` is a numpy
array, so `n = neighbors + neighbors[0]` *broadcasts*: it adds the scalar
`neighbors[0]` to every entry (it does not append it), and the subsequent
`zip(n, n[1:])` walks the 7 adjacent pairs with no wrap-around. -/
def get_transitions (ns : List Nat) : Nat :=
  countTrans (ns.map (· + ns.headI))

/-- The specification's transition count: traverse the 8 neighbours
cyclically, including the wrap-around pair `P9 → P2`. -/
def cyclicTrans (ns : List Nat) : Nat :=
  countTrans (ns ++ [ns.headI])

/-- The first sub-pass's removal condition at a pixel (the conjunction
tested at source lines 185–190). -/
def MarkedFirst (f : Int → Int → Nat) (p : Pos) : Prop :=
  f p.1 p.2 = 1 ∧
  2 ≤ (get_neighbors f p.1 p.2).count 1 ∧
  (get_neighbors f p.1 p.2).count 1 ≤ 6 ∧
  get_transitions (get_neighbors f p.1 p.2) = 1 ∧
  (get_neighbors f p.1 p.2).getD 0 0 * (get_neighbors f p.1 p.2).getD 2 0 *
    (get_neighbors f p.1 p.2).getD 4 0 = 0 ∧
  (get_neighbors f p.1 p.2).getD 2 0 * (get_neighbors f p.1 p.2).getD 4 0 *
    (get_neighbors f p.1 p.2).getD 6 0 = 0

/-- The second sub-pass's removal condition (source lines 199–204). -/
def MarkedSecond (f : Int → Int → Nat) (p : Pos) : Prop :=
  f p.1 p.2 = 1 ∧
  2 ≤ (get_neighbors f p.1 p.2).count 1 ∧
  (get_neighbors f p.1 p.2).count 1 ≤ 6 ∧
  get_transitions (get_neighbors f p.1 p.2) = 1 ∧
  (get_neighbors f p.1 p.2).getD 0 0 * (get_neighbors f p.1 p.2).getD 2 0 *
    (get_neighbors f p.1 p.2).getD 6 0 = 0 ∧
  (get_neighbors f p.1 p.2).getD 0 0 * (get_neighbors f p.1 p.2).getD 4 0 *
    (get_neighbors f p.1 p.2).getD 6 0 = 0

instance (f : Int → Int → Nat) (p : Pos) : Decidable (MarkedFirst f p) := by
  unfold MarkedFirst; infer_instance

instance (f : Int → Int → Nat) (p : Pos) : Decidable (MarkedSecond f p) := by
  unfold MarkedSecond; infer_instance

/-- The scan order of both sub-passes: `for i in range(1, H): for j in
range(1, W)` — note this stops at `H - 1` and `W - 1` on the padded
array. -/
def scanIdx (H W : Nat) : List Pos :=
  (List.range' 1 (H - 1)).flatMap fun i =>
    (List.range' 1 (W - 1)).map fun (j : Nat) => ((i : Int), (j : Int))

/-- `changed_first`: the pixels collected by the first sub-pass's scan. -/
def changedFirst (H W : Nat) (f : Int → Int → Nat) : List Pos :=
  (scanIdx H W).filter fun p => decide (MarkedFirst f p)

/-- `changed_second`: the pixels collected by the second sub-pass's scan. -/
def changedSecond (H W : Nat) (f : Int → Int → Nat) : List Pos :=
  (scanIdx H W).filter fun p => decide (MarkedSecond f p)

/-- Simultaneous removal: set every listed pixel to `0`. -/
def removeAll (f : Int → Int → Nat) (l : List Pos) : Int → Int → Nat :=
  fun i j => if (i, j) ∈ l then 0 else f i j

/-- One full iteration of the `while` body (both sub-passes); the boolean
records whether either sub-pass removed a pixel. -/
def fullPass (H W : Nat) (f : Int → Int → Nat) : (Int → Int → Nat) × Bool :=
  let c1 := changedFirst H W f
  let f1 := removeAll f c1
  let c2 := changedSecond H W f1
  let f2 := removeAll f1 c2
  (f2, !(c1.isEmpty && c2.isEmpty))

/-- The image after one full iteration. -/
def passStep (H W : Nat) (f : Int → Int → Nat) : Int → Int → Nat :=
  (fullPass H W f).1

/-- Whether one full iteration removes a pixel. -/
def passChanged (H W : Nat) (f : Int → Int → Nat) : Bool :=
  (fullPass H W f).2

/-- The `while changed_first or changed_second` loop, fuelled.  The flag
initialisation primes the loop, so the body always runs at least once:
the loop is "run a pass; if it changed something, repeat". -/
def skelLoop (H W : Nat) : Nat → (Int → Int → Nat) → Int → Int → Nat
  | 0, f => f
  | fuel + 1, f =>
    let r := fullPass H W f
    if r.2 then skelLoop H W fuel r.1 else r.1

/-- The cells of the padded grid (used only as a termination measure). -/
def gridCells (H W : Nat) : Finset Pos :=
  ((Finset.range (H + 2)) ×ˢ (Finset.range (W + 2))).image
    fun q => ((q.1 : Int), (q.2 : Int))

/-- Number of pixels of value `1` in the padded grid. -/
def fgCount (H W : Nat) (f : Int → Int → Nat) : Nat :=
  ((gridCells H W).filter fun p => f p.1 p.2 = 1).card

/-- The padded image at the fixed point of the thinning iteration. -/
def skelFinal (R : Raster) : Int → Int → Nat :=
  skelLoop R.h R.w (fgCount R.h R.w (pad R).data + 1) (pad R).data

/-- `skeletonization(image)`: pad, iterate to the fixed point, and return
`image[1:H, 1:W]` of the padded array — which is the slice of rows
`1 .. H-1` and columns `1 .. W-1`, of shape `(H-1) × (W-1)`. -/
def skeletonization (R : Raster) : Raster :=
  ⟨R.h - 1, R.w - 1, fun i j => skelFinal R (i + 1) (j + 1)⟩

/-! ### Transition-count lemmas (claim C3) -/

theorem countTrans_of_no_zero : ∀ l : List Nat, (∀ x ∈ l, x ≠ 0) → countTrans l = 0
  | [], _ => rfl
  | [_], _ => rfl
  | a :: b :: t, h => by
    have ha : a ≠ 0 := h a (by simp)
    have ih := countTrans_of_no_zero (b :: t) fun x hx => h x (List.mem_cons_of_mem a hx)
    simp [countTrans, ih, ha]

theorem countTrans_append_zero : ∀ l : List Nat, countTrans (l ++ [0]) = countTrans l
  | [] => rfl
  | [a] => by simp [countTrans]
  | a :: b :: t => by
    have ih := countTrans_append_zero (b :: t)
    simpa [countTrans] using ih

/-- If the source's (broadcast-affected) transition count is `1`, the head
neighbour `P2` must be `0` — otherwise every entry of
`neighbors + neighbors[0]` is positive and the count is `0`. -/
theorem headI_eq_zero_of_get_transitions (ns : List Nat)
    (h1 : get_transitions ns = 1) : ns.headI = 0 := by
  by_contra hne
  have h0 : get_transitions ns = 0 := by
    apply countTrans_of_no_zero
    intro x hx
    rcases List.mem_map.mp hx with ⟨y, _, rfl⟩
    omega
  omega

/-- When the source's transition test passes, the true cyclic transition
count (with the wrap-around pair `P9 → P2`) is also exactly `1`. -/
theorem cyclicTrans_of_get_transitions (ns : List Nat)
    (h1 : get_transitions ns = 1) : cyclicTrans ns = 1 := by
  have hh : ns.headI = 0 := headI_eq_zero_of_get_transitions ns h1
  have hmap : ns.map (· + ns.headI) = ns := by
    simp [hh]
  rw [get_transitions, hmap] at h1
  rw [cyclicTrans, hh, countTrans_append_zero, h1]

/-! ### Termination of the thinning loop (claim C8) -/

theorem removeAll_nil (f : Int → Int → Nat) : removeAll f [] = f := by
  funext i j
  simp [removeAll]

theorem passStep_of_not_changed (H W : Nat) (f : Int → Int → Nat)
    (h : passChanged H W f = false) : passStep H W f = f := by
  unfold passChanged fullPass at h
  simp only [Bool.not_eq_false', Bool.and_eq_true, List.isEmpty_iff] at h
  unfold passStep fullPass
  simp only [h.1, removeAll_nil]
  rw [h.1, removeAll_nil] at h
  simp only [h.2, removeAll_nil]

theorem mem_scanIdx_gridCells (H W : Nat) (p : Pos) (hp : p ∈ scanIdx H W) :
    p ∈ gridCells H W := by
  simp only [scanIdx, List.mem_flatMap, List.mem_map, List.mem_range'_1] at hp
  rcases hp with ⟨i, hi, j, hj, rfl⟩
  exact Finset.mem_image.mpr ⟨(i, j),
    Finset.mem_product.mpr ⟨Finset.mem_range.mpr (by omega), Finset.mem_range.mpr (by omega)⟩,
    rfl⟩

theorem removeAll_mem_zero (f : Int → Int → Nat) (l : List Pos) (p : Pos) (hp : p ∈ l) :
    removeAll f l p.1 p.2 = 0 := by
  unfold removeAll
  simp [hp]

theorem removeAll_le (f : Int → Int → Nat) (l : List Pos) (i j : Int) :
    removeAll f l i j ≤ f i j := by
  unfold removeAll
  split <;> omega

theorem fgCount_lt_of_changed (H W : Nat) (f : Int → Int → Nat)
    (h : passChanged H W f = true) :
    fgCount H W (passStep H W f) < fgCount H W f := by
  have hsub : ∀ p : Pos, passStep H W f p.1 p.2 = 1 → f p.1 p.2 = 1 := by
    intro p hp
    unfold passStep fullPass removeAll at hp
    simp only at hp
    split at hp
    · omega
    · split at hp
      · omega
      · exact hp
  have hex : ∃ p : Pos, p ∈ gridCells H W ∧ f p.1 p.2 = 1 ∧ passStep H W f p.1 p.2 = 0 := by
    cases hc1 : changedFirst H W f with
    | cons a t =>
      have hp : a ∈ changedFirst H W f := by rw [hc1]; exact List.mem_cons_self a t
      have hmem := hp
      rw [changedFirst, List.mem_filter] at hmem
      refine ⟨a, mem_scanIdx_gridCells H W a hmem.1, (of_decide_eq_true hmem.2).1, ?_⟩
      have h0 : removeAll f (changedFirst H W f) a.1 a.2 = 0 := removeAll_mem_zero f _ a hp
      have hle := removeAll_le (removeAll f (changedFirst H W f))
        (changedSecond H W (removeAll f (changedFirst H W f))) a.1 a.2
      show removeAll (removeAll f (changedFirst H W f))
        (changedSecond H W (removeAll f (changedFirst H W f))) a.1 a.2 = 0
      omega
    | nil =>
      cases hc2 : changedSecond H W (removeAll f (changedFirst H W f)) with
      | nil =>
        exfalso
        unfold passChanged fullPass at h
        simp only at h
        rw [hc1] at h
        rw [hc1] at hc2
        rw [hc2] at h
        simp at h
      | cons a t =>
        have hp : a ∈ changedSecond H W (removeAll f (changedFirst H W f)) := by
          rw [hc2]; exact List.mem_cons_self a t
        have hmem := hp
        rw [changedSecond, List.mem_filter] at hmem
        have hms := of_decide_eq_true hmem.2
        have hf1 : removeAll f (changedFirst H W f) a.1 a.2 = 1 := hms.1
        refine ⟨a, mem_scanIdx_gridCells H W a hmem.1, ?_, ?_⟩
        · unfold removeAll at hf1
          split at hf1
          · omega
          · exact hf1
        · show removeAll (removeAll f (changedFirst H W f))
            (changedSecond H W (removeAll f (changedFirst H W f))) a.1 a.2 = 0
          exact removeAll_mem_zero _ _ a hp
  rcases hex with ⟨p, hpc, hp1, hp0⟩
  apply Finset.card_lt_card
  constructor
  · intro q hq
    rw [Finset.mem_filter] at hq ⊢
    exact ⟨hq.1, hsub q hq.2⟩
  · intro hcon
    have := hcon (Finset.mem_filter.mpr ⟨hpc, hp1⟩)
    rw [Finset.mem_filter] at this
    omega

theorem skelLoop_succ (H W fuel : Nat) (f : Int → Int → Nat) :
    skelLoop H W (fuel + 1) f =
      if passChanged H W f then skelLoop H W fuel (passStep H W f) else passStep H W f := rfl

theorem skelLoop_reaches_fix (H W : Nat) :
    ∀ fuel f, fgCount H W f < fuel →
      passChanged H W (skelLoop H W fuel f) = false ∧
      ∃ k, (∀ j < k, passChanged H W ((passStep H W)^[j] f) = true) ∧
        skelLoop H W fuel f = (passStep H W)^[k] f := by
  intro fuel
  induction fuel with
  | zero => intro f hf; omega
  | succ n ih =>
    intro f hf
    by_cases hc : passChanged H W f = true
    · have hstep : skelLoop H W (n + 1) f = skelLoop H W n (passStep H W f) := by
        rw [skelLoop_succ, if_pos hc]
      have hlt : fgCount H W (passStep H W f) < n :=
        lt_of_lt_of_le (fgCount_lt_of_changed H W f hc) (by omega)
      rcases ih (passStep H W f) hlt with ⟨hfix, k, hall, heq⟩
      refine ⟨by rwa [hstep], k + 1, ?_, ?_⟩
      · intro j hj
        cases j with
        | zero => simpa using hc
        | succ j' =>
          rw [Function.iterate_succ_apply]
          exact hall j' (by omega)
      · rw [hstep, heq, Function.iterate_succ_apply]
    · have hc' : passChanged H W f = false := by simpa using hc
      have hstep : skelLoop H W (n + 1) f = passStep H W f := by
        rw [skelLoop_succ, if_neg (by simp [hc'])]
      rw [hstep, passStep_of_not_changed H W f hc']
      exact ⟨hc', 0, by omega, rfl⟩

theorem skelLoop_stable (H W : Nat) :
    ∀ fuel f extra, fgCount H W f < fuel →
      skelLoop H W (fuel + extra) f = skelLoop H W fuel f := by
  intro fuel
  induction fuel with
  | zero => intro f extra hf; omega
  | succ n ih =>
    intro f extra hf
    have harr : n + 1 + extra = (n + extra) + 1 := by omega
    by_cases hc : passChanged H W f = true
    · have hlt : fgCount H W (passStep H W f) < n :=
        lt_of_lt_of_le (fgCount_lt_of_changed H W f hc) (by omega)
      rw [harr, skelLoop_succ, skelLoop_succ, if_pos hc, if_pos hc]
      exact ih (passStep H W f) extra hlt
    · have hc' : passChanged H W f = false := by simpa using hc
      rw [harr, skelLoop_succ, skelLoop_succ, if_neg (by simp [hc']), if_neg (by simp [hc'])]

/-- A filled 3×3 block of foreground in a 5×5 all-zero raster (the spec's
concrete scenario 3), used as a concrete input for the thinning engine. -/
def block55 : Raster :=
  ofRows [[0, 0, 0, 0, 0], [0, 1, 1, 1, 0], [0, 1, 1, 1, 0], [0, 1, 1, 1, 0], [0, 0, 0, 0, 0]]

/-- C3: in `skeletonization`, a foreground pixel is marked for removal in a
sub-pass only if the number of 0→1 transitions encountered when traversing
its 8 neighbours P2..P9 cyclically (including the wrap-around pair P9→P2)
is exactly 1; pixels whose cyclic transition count differs from 1 are never
collected in either sub-pass's changed list.  (The source's broadcast-typo
transition test is stronger than the cyclic test, never weaker.) -/
theorem sub_pass_marks_only_cyclic_transition_one (H W : Nat)
    (f : Int → Int → Nat) (p : Pos)
    (h : p ∈ changedFirst H W f ∨ p ∈ changedSecond H W f) :
    cyclicTrans (get_neighbors f p.1 p.2) = 1 := by
  rcases h with h | h
  · rw [changedFirst, List.mem_filter] at h
    exact cyclicTrans_of_get_transitions _ (of_decide_eq_true h.2).2.2.2.1
  · rw [changedSecond, List.mem_filter] at h
    exact cyclicTrans_of_get_transitions _ (of_decide_eq_true h.2).2.2.2.1

/-- Witness for C3: on the padded 3×3 block, pixel (2,2) is collected by
the first sub-pass, and its cyclic transition count is 1. -/
theorem sub_pass_marks_only_cyclic_transition_one_witness :
    (((2 : Int), (2 : Int)) ∈ changedFirst 5 5 (pad block55).data ∨
      ((2 : Int), (2 : Int)) ∈ changedSecond 5 5 (pad block55).data) ∧
    cyclicTrans (get_neighbors (pad block55).data 2 2) = 1 :=
  ⟨Or.inl (by decide),
    sub_pass_marks_only_cyclic_transition_one 5 5 (pad block55).data (2, 2)
      (Or.inl (by decide))⟩

/-- C1 (refuted, code bug): `skeletonization` does not return a raster of
the input's H×W dimensions.  Its return slice is `image[1:H, 1:W]` of the
(H+2)×(W+2) padded working copy — rows 1..H−1 and columns 1..W−1 — of
shape (H−1)×(W−1), not the padded interior `image[1:H+1, 1:W+1]`.  On the
2×2 all-zero raster the output is 1×1, not 2×2. -/
theorem skeletonization_shape_off_by_one :
    (∀ R : Raster, (skeletonization R).h = R.h - 1 ∧ (skeletonization R).w = R.w - 1) ∧
    (skeletonization (ofRows [[0, 0], [0, 0]])).h = 1 ∧
    (skeletonization (ofRows [[0, 0], [0, 0]])).w = 1 ∧
    ¬((skeletonization (ofRows [[0, 0], [0, 0]])).h = 2 ∧
      (skeletonization (ofRows [[0, 0], [0, 0]])).w = 2) :=
  ⟨fun _ => ⟨rfl, rfl⟩, rfl, rfl, by decide⟩

/-- C8: for every input raster the thinning iteration terminates: the
returned image is already converged (any extra fuel leaves it unchanged),
it is a fixed point at which a further full pass removes zero pixels in
both sub-passes, the loop executes at least one full iteration (the
result is the `k + 1`-st iterate of the full pass for some `k ≥ 0`), and
it exits exactly when an iteration removes nothing: every earlier
iteration removed at least one pixel. -/
theorem skeletonization_loop_terminates (R : Raster) :
    passChanged R.h R.w (skelFinal R) = false ∧
    passStep R.h R.w (skelFinal R) = skelFinal R ∧
    (∀ extra : Nat,
      skelLoop R.h R.w (fgCount R.h R.w (pad R).data + 1 + extra) (pad R).data = skelFinal R) ∧
    ∃ k : Nat,
      (∀ j < k, passChanged R.h R.w ((passStep R.h R.w)^[j] (pad R).data) = true) ∧
      skelFinal R = (passStep R.h R.w)^[k + 1] (pad R).data := by
  have hfuel : fgCount R.h R.w (pad R).data < fgCount R.h R.w (pad R).data + 1 := by omega
  rcases skelLoop_reaches_fix R.h R.w _ (pad R).data hfuel with ⟨hfix, k, hall, heq⟩
  have hskel : skelFinal R =
      skelLoop R.h R.w (fgCount R.h R.w (pad R).data + 1) (pad R).data := rfl
  have hfix' : passChanged R.h R.w (skelFinal R) = false := by rw [hskel]; exact hfix
  refine ⟨hfix', passStep_of_not_changed _ _ _ hfix', ?_, k, hall, ?_⟩
  · intro extra
    exact skelLoop_stable R.h R.w _ (pad R).data extra hfuel
  · have hch : passChanged R.h R.w ((passStep R.h R.w)^[k] (pad R).data) = false := by
      rw [← heq]; exact hfix
    rw [hskel, heq, Function.iterate_succ_apply', passStep_of_not_changed _ _ _ hch]

/-! ## Disjoint-set (`equiv_table` with `find` and `union`)

The Python `equiv_table` is a `dict`; it is modelled as a finite key set
plus a total parent function (reads outside `keys` raise `KeyError`,
modelled by `Option`). -/

/-- The equivalence table: registered labels and their parent links. -/
structure DSU where
  keys : Finset Nat
  parent : Nat → Nat

/-- A label that is its own parent (an equivalence-class root). -/
def IsRoot (d : DSU) (r : Nat) : Prop := d.parent r = r

/-- `find(a)` with path compression, fuelled.  `none` models a `KeyError`
on an unregistered label (and fuel exhaustion, which is unreachable for
registered labels under the `WFd` invariant).  The source:
`if equiv_table[a] != a: equiv_table[a] = find(equiv_table[a]);
return equiv_table[a]`. -/
def findC (d : DSU) (a : Nat) : Nat → Option (DSU × Nat)
  | 0 => none
  | fuel + 1 =>
    if a ∈ d.keys then
      if d.parent a = a then some (d, a)
      else
        match findC d (d.parent a) fuel with
        | none => none
        | some (d', r) => some (⟨d'.keys, Function.update d'.parent a r⟩, r)
    else none

/-- `union(a, b)`: find both roots; smaller root becomes the parent of
the larger; no table change when the roots already coincide. -/
def unionD (d : DSU) (a b : Nat) : Option DSU :=
  match findC d a (a + 1) with
  | none => none
  | some (d1, ra) =>
    match findC d1 b (b + 1) with
    | none => none
    | some (d2, rb) =>
      if ra = rb then some d2
      else if ra < rb then some ⟨d2.keys, Function.update d2.parent rb ra⟩
      else some ⟨d2.keys, Function.update d2.parent ra rb⟩

/-- `equiv_table[label] = label`: register a (fresh) label as its own
singleton class. -/
def addKey (d : DSU) (n : Nat) : DSU :=
  ⟨insert n d.keys, Function.update d.parent n n⟩

/-- Table well-formedness: parent links stay inside the key set and never
increase (initially each key is its own parent; `union` points the larger
root at the smaller; compression points a label at its root, which is an
even smaller value). -/
def WFd (d : DSU) : Prop := ∀ a ∈ d.keys, d.parent a ∈ d.keys ∧ d.parent a ≤ a

/-- Pure (compression-free) root of a label, fuelled. -/
def rootP (d : DSU) : Nat → Nat → Nat
  | a, 0 => a
  | a, fuel + 1 => if d.parent a = a then a else rootP d (d.parent a) fuel

/-- The canonical representative of a registered label: fuel `a + 1`
always suffices under `WFd` because parents strictly decrease off roots. -/
def droot (d : DSU) (a : Nat) : Nat := rootP d a (a + 1)

theorem rootP_of_isRoot (d : DSU) (a : Nat) (h : IsRoot d a) :
    ∀ fuel, rootP d a fuel = a := by
  intro fuel
  cases fuel with
  | zero => rfl
  | succ n =>
    unfold IsRoot at h
    simp [rootP, h]

theorem droot_of_isRoot (d : DSU) (a : Nat) (h : IsRoot d a) : droot d a = a :=
  rootP_of_isRoot d a h _

theorem rootP_props (d : DSU) (hwf : WFd d) :
    ∀ fuel a, a ∈ d.keys → a < fuel →
      rootP d a fuel ∈ d.keys ∧ IsRoot d (rootP d a fuel) ∧ rootP d a fuel ≤ a := by
  intro fuel
  induction fuel with
  | zero => intro a _ h; omega
  | succ n ih =>
    intro a ha hlt
    by_cases hr : d.parent a = a
    · simp only [rootP, hr, if_pos rfl]
      exact ⟨ha, hr, le_refl a⟩
    · have hp := hwf a ha
      have hplt : d.parent a < a := lt_of_le_of_ne hp.2 hr
      have := ih (d.parent a) hp.1 (by omega)
      simp only [rootP, if_neg hr]
      exact ⟨this.1, this.2.1, by omega⟩

theorem rootP_fuel_eq (d : DSU) (hwf : WFd d) :
    ∀ fuel fuel' a, a ∈ d.keys → a < fuel → a < fuel' →
      rootP d a fuel = rootP d a fuel' := by
  intro fuel
  induction fuel with
  | zero => intro fuel' a _ h; omega
  | succ n ih =>
    intro fuel' a ha h1 h2
    cases fuel' with
    | zero => omega
    | succ n' =>
      by_cases hr : d.parent a = a
      · simp [rootP, hr]
      · have hp := hwf a ha
        have hplt : d.parent a < a := lt_of_le_of_ne hp.2 hr
        simp only [rootP, if_neg hr]
        exact ih n' (d.parent a) hp.1 (by omega) (by omega)

theorem droot_mem (d : DSU) (hwf : WFd d) (a : Nat) (ha : a ∈ d.keys) :
    droot d a ∈ d.keys :=
  (rootP_props d hwf (a + 1) a ha (by omega)).1

theorem droot_isRoot (d : DSU) (hwf : WFd d) (a : Nat) (ha : a ∈ d.keys) :
    IsRoot d (droot d a) :=
  (rootP_props d hwf (a + 1) a ha (by omega)).2.1

theorem droot_le (d : DSU) (hwf : WFd d) (a : Nat) (ha : a ∈ d.keys) :
    droot d a ≤ a :=
  (rootP_props d hwf (a + 1) a ha (by omega)).2.2

theorem droot_parent (d : DSU) (hwf : WFd d) (a : Nat) (ha : a ∈ d.keys) :
    droot d (d.parent a) = droot d a := by
  by_cases hr : d.parent a = a
  · rw [hr]
  · have hp := hwf a ha
    have hplt : d.parent a < a := lt_of_le_of_ne hp.2 hr
    have h1 : droot d a = rootP d (d.parent a) a := by
      unfold droot
      simp [rootP, hr]
    rw [h1, droot]
    exact (rootP_fuel_eq d hwf (d.parent a + 1) a (d.parent a) hp.1 (by omega) (by omega))

theorem isRoot_of_droot_self (d : DSU) (hwf : WFd d) (a : Nat) (ha : a ∈ d.keys)
    (h : droot d a = a) : IsRoot d a := by
  by_cases hr : d.parent a = a
  · exact hr
  · exfalso
    have hp := hwf a ha
    have hplt : d.parent a < a := lt_of_le_of_ne hp.2 hr
    have h2 : droot d (d.parent a) = droot d a := droot_parent d hwf a ha
    have h3 : droot d (d.parent a) ≤ d.parent a := droot_le d hwf _ hp.1
    omega

/-- `rootP` only consults the parent function on registered labels, so it
is unchanged by any modification outside the key set (and by a change of
the key set itself). -/
theorem rootP_congr (d : DSU) (hwf : WFd d) (K' : Finset Nat) (p' : Nat → Nat)
    (hagree : ∀ y ∈ d.keys, p' y = d.parent y) :
    ∀ fuel a, a ∈ d.keys → rootP ⟨K', p'⟩ a fuel = rootP d a fuel := by
  intro fuel
  induction fuel with
  | zero => intro a _; rfl
  | succ n ih =>
    intro a ha
    show (if p' a = a then a else rootP ⟨K', p'⟩ (p' a) n) = _
    rw [hagree a ha]
    by_cases hr : d.parent a = a
    · simp [rootP, hr]
    · simp only [rootP, if_neg hr]
      exact ih (d.parent a) (hwf a ha).1

theorem droot_congr (d : DSU) (hwf : WFd d) (K' : Finset Nat) (p' : Nat → Nat)
    (hagree : ∀ y ∈ d.keys, p' y = d.parent y) (x : Nat) (hx : x ∈ d.keys) :
    droot ⟨K', p'⟩ x = droot d x :=
  rootP_congr d hwf K' p' hagree (x + 1) x hx

/-- Redirecting one registered label `a` at a root `r` (path compression
redirects `a` at its own root; `union` redirects the larger root at the
smaller) keeps the table well-formed and rewrites every canonical
representative by "the class of `a` now answers `r`". -/
theorem droot_update_to_root (d : DSU) (hwf : WFd d) (a r : Nat)
    (ha : a ∈ d.keys) (hrk : r ∈ d.keys) (hr : IsRoot d r) (hle : r ≤ a)
    (hcase : r = droot d a ∨ IsRoot d a) :
    WFd ⟨d.keys, Function.update d.parent a r⟩ ∧
    ∀ x ∈ d.keys,
      droot ⟨d.keys, Function.update d.parent a r⟩ x =
        if droot d x = droot d a then r else droot d x := by
  have hwf2 : WFd ⟨d.keys, Function.update d.parent a r⟩ := by
    intro x hx
    show (Function.update d.parent a r x ∈ d.keys) ∧ Function.update d.parent a r x ≤ x
    rw [Function.update_apply]
    by_cases hxa : x = a
    · simp only [if_pos hxa]
      exact ⟨hrk, by omega⟩
    · simp only [if_neg hxa]
      exact hwf x hx
  refine ⟨hwf2, ?_⟩
  intro x
  induction x using Nat.strong_induction_on with
  | _ x ih =>
    intro hx
    by_cases hxa : x = a
    · subst hxa
      by_cases hra : r = x
      · have hrx : droot d x = x := by
          rcases hcase with hc | hc
          · omega
          · exact droot_of_isRoot d x hc
        have hroot2 : IsRoot ⟨d.keys, Function.update d.parent x r⟩ x := by
          show Function.update d.parent x r x = x
          rw [Function.update_apply]
          simp [hra]
        rw [droot_of_isRoot _ x hroot2, hrx, if_pos rfl, hra]
      · have hpar2 : (⟨d.keys, Function.update d.parent x r⟩ : DSU).parent x = r := by
          show Function.update d.parent x r x = r
          rw [Function.update_apply, if_pos rfl]
        have h1 : droot ⟨d.keys, Function.update d.parent x r⟩ x =
            droot ⟨d.keys, Function.update d.parent x r⟩ r := by
          rw [← (droot_parent _ hwf2 x hx), hpar2]
        have hroot2 : IsRoot ⟨d.keys, Function.update d.parent x r⟩ r := by
          show Function.update d.parent x r r = r
          rw [Function.update_apply, if_neg hra]
          exact hr
        rw [h1, droot_of_isRoot _ r hroot2, if_pos rfl]
    · have hpar2 : (⟨d.keys, Function.update d.parent a r⟩ : DSU).parent x = d.parent x := by
        show Function.update d.parent a r x = d.parent x
        rw [Function.update_apply, if_neg hxa]
      by_cases hroot : d.parent x = x
      · have hroot2 : IsRoot ⟨d.keys, Function.update d.parent a r⟩ x := by
          show Function.update d.parent a r x = x
          rw [Function.update_apply, if_neg hxa]
          exact hroot
        rw [droot_of_isRoot _ x hroot2, droot_of_isRoot d x hroot]
        by_cases hda : x = droot d a
        · rcases hcase with hc | hc
          · rw [if_pos hda]
            omega
          · exfalso
            have : droot d a = a := droot_of_isRoot d a hc
            omega
        · rw [if_neg (by omega)]
      · have hp := hwf x hx
        have hplt : d.parent x < x := lt_of_le_of_ne hp.2 hroot
        have h1 : droot ⟨d.keys, Function.update d.parent a r⟩ x =
            droot ⟨d.keys, Function.update d.parent a r⟩ (d.parent x) := by
          rw [← (droot_parent _ hwf2 x hx), hpar2]
        rw [h1, ih (d.parent x) hplt hp.1, droot_parent d hwf x hx]

/-- `find` on a registered label succeeds (given fuel past the label's
value), returns the canonical representative, and — path compression
included — changes no key and no canonical representative. -/
theorem findC_ok (d : DSU) (hwf : WFd d) :
    ∀ fuel a, a ∈ d.keys → a < fuel →
      ∃ d', findC d a fuel = some (d', droot d a) ∧ d'.keys = d.keys ∧ WFd d' ∧
        ∀ x ∈ d.keys, droot d' x = droot d x := by
  intro fuel
  induction fuel with
  | zero => intro a _ h; omega
  | succ n ih =>
    intro a ha hlt
    by_cases hr : d.parent a = a
    · refine ⟨d, ?_, rfl, hwf, fun x _ => rfl⟩
      rw [droot_of_isRoot d a hr]
      unfold findC
      rw [if_pos ha, if_pos hr]
    · have hp := hwf a ha
      have hplt : d.parent a < a := lt_of_le_of_ne hp.2 hr
      obtain ⟨d1, heq, hk1, hwf1, hdr1⟩ := ih (d.parent a) hp.1 (by omega)
      have hroot_eq : droot d (d.parent a) = droot d a := droot_parent d hwf a ha
      have hra : droot d a ∈ d.keys := droot_mem d hwf a ha
      have hisr : IsRoot d1 (droot d a) := by
        apply isRoot_of_droot_self d1 hwf1 _ (hk1 ▸ hra)
        rw [hdr1 _ hra]
        exact droot_of_isRoot d _ (droot_isRoot d hwf a ha)
      have hup := droot_update_to_root d1 hwf1 a (droot d a) (hk1 ▸ ha) (hk1 ▸ hra)
        hisr (droot_le d hwf a ha) (Or.inl (by rw [hdr1 a (by exact ha)]))
      refine ⟨⟨d1.keys, Function.update d1.parent a (droot d a)⟩, ?_, hk1, hup.1, ?_⟩
      · rw [hroot_eq] at heq
        unfold findC
        rw [if_pos ha, if_neg hr, heq]
      · intro x hx
        have := hup.2 x (hk1 ▸ hx)
        rw [this, hdr1 x hx, hdr1 a ha]
        by_cases hc : droot d x = droot d a
        · rw [if_pos hc, hc]
        · rw [if_neg hc]

/-- `union` on registered labels succeeds, keeps the key set, keeps
well-formedness, merges exactly the two classes with the smaller root as
the canonical id, and — when the roots differ — literally points the
larger root at the smaller one. -/
theorem unionD_ok (d : DSU) (hwf : WFd d) (a b : Nat)
    (ha : a ∈ d.keys) (hb : b ∈ d.keys) :
    ∃ e, unionD d a b = some e ∧ e.keys = d.keys ∧ WFd e ∧
      (∀ x ∈ d.keys, droot e x =
        if droot d x = max (droot d a) (droot d b) then min (droot d a) (droot d b)
        else droot d x) ∧
      (droot d a ≠ droot d b →
        e.parent (max (droot d a) (droot d b)) = min (droot d a) (droot d b)) := by
  obtain ⟨d1, hfa, hk1, hwf1, hdr1⟩ := findC_ok d hwf (a + 1) a ha (by omega)
  have hb1 : b ∈ d1.keys := hk1 ▸ hb
  obtain ⟨d2, hfb, hk2, hwf2, hdr2⟩ := findC_ok d1 hwf1 (b + 1) b hb1 (by omega)
  have hrb_eq : droot d1 b = droot d b := hdr1 b hb
  have hkeys2 : d2.keys = d.keys := by rw [hk2, hk1]
  have hdr12 : ∀ x ∈ d.keys, droot d2 x = droot d x := by
    intro x hx
    rw [hdr2 x (hk1 ▸ hx), hdr1 x hx]
  have hq : unionD d a b =
      (if droot d a = droot d1 b then some d2
       else if droot d a < droot d1 b then
         some ⟨d2.keys, Function.update d2.parent (droot d1 b) (droot d a)⟩
       else some ⟨d2.keys, Function.update d2.parent (droot d a) (droot d1 b)⟩) := by
    unfold unionD
    rw [hfa]
    simp only [hfb]
  rw [hrb_eq] at hq
  have hram : droot d a ∈ d.keys := droot_mem d hwf a ha
  have hrbm : droot d b ∈ d.keys := droot_mem d hwf b hb
  have hisra : IsRoot d2 (droot d a) := by
    apply isRoot_of_droot_self d2 hwf2 _ (hkeys2 ▸ hram)
    rw [hdr12 _ hram]
    exact droot_of_isRoot d _ (droot_isRoot d hwf a ha)
  have hisrb : IsRoot d2 (droot d b) := by
    apply isRoot_of_droot_self d2 hwf2 _ (hkeys2 ▸ hrbm)
    rw [hdr12 _ hrbm]
    exact droot_of_isRoot d _ (droot_isRoot d hwf b hb)
  by_cases hab : droot d a = droot d b
  · refine ⟨d2, by rw [hq, if_pos hab], hkeys2, hwf2, ?_, fun hne => absurd hab hne⟩
    intro x hx
    rw [hdr12 x hx, hab, max_self, min_self]
    by_cases hc : droot d x = droot d b
    · rw [if_pos hc, hc]
    · rw [if_neg hc]
  · by_cases hlt : droot d a < droot d b
    · have hup := droot_update_to_root d2 hwf2 (droot d b) (droot d a)
        (hkeys2 ▸ hrbm) (hkeys2 ▸ hram) hisra (by omega)
        (Or.inr hisrb)
      have hdb2 : droot d2 (droot d b) = droot d b := by
        rw [hdr12 _ hrbm]
        exact droot_of_isRoot d _ (droot_isRoot d hwf b hb)
      refine ⟨⟨d2.keys, Function.update d2.parent (droot d b) (droot d a)⟩,
        by rw [hq, if_neg hab, if_pos hlt], hkeys2, hup.1, ?_, ?_⟩
      · intro x hx
        have := hup.2 x (hkeys2 ▸ hx)
        rw [this, hdr12 x hx, hdb2, max_eq_right (le_of_lt hlt), min_eq_left (le_of_lt hlt)]
      · intro _
        show Function.update d2.parent (droot d b) (droot d a)
          (max (droot d a) (droot d b)) = min (droot d a) (droot d b)
        rw [max_eq_right (le_of_lt hlt), min_eq_left (le_of_lt hlt),
          Function.update_apply, if_pos rfl]
    · have hgt : droot d b < droot d a := by omega
      have hup := droot_update_to_root d2 hwf2 (droot d a) (droot d b)
        (hkeys2 ▸ hram) (hkeys2 ▸ hrbm) hisrb (by omega)
        (Or.inr hisra)
      have hda2 : droot d2 (droot d a) = droot d a := by
        rw [hdr12 _ hram]
        exact droot_of_isRoot d _ (droot_isRoot d hwf a ha)
      refine ⟨⟨d2.keys, Function.update d2.parent (droot d a) (droot d b)⟩,
        by rw [hq, if_neg hab, if_neg hlt], hkeys2, hup.1, ?_, ?_⟩
      · intro x hx
        have := hup.2 x (hkeys2 ▸ hx)
        rw [this, hdr12 x hx, hda2, max_eq_left (le_of_lt hgt), min_eq_right (le_of_lt hgt)]
      · intro _
        show Function.update d2.parent (droot d a) (droot d b)
          (max (droot d a) (droot d b)) = min (droot d a) (droot d b)
        rw [max_eq_left (le_of_lt hgt), min_eq_right (le_of_lt hgt),
          Function.update_apply, if_pos rfl]

/-! ### Sequences of registrations and unions (claim C7) -/

/-- One disjoint-set operation: register a fresh label, or merge two. -/
inductive Op where
  | register (n : Nat)
  | unite (a b : Nat)

/-- The empty table (before any `equiv_table[label] = label`). -/
def dsuInit : DSU := ⟨∅, fun n => n⟩

def applyOp (d : DSU) : Op → Option DSU
  | Op.register n => some (addKey d n)
  | Op.unite a b => unionD d a b

def runOps : List Op → DSU → Option DSU
  | [], d => some d
  | op :: rest, d =>
    match applyOp d op with
    | none => none
    | some d' => runOps rest d'

/-- Total wrapper for a run from the empty table (the run in fact always
succeeds for well-formed operation sequences, see `runOps_inv`). -/
def runOpsT (ops : List Op) : DSU := (runOps ops dsuInit).getD dsuInit

/-- Well-formed use of the table, as `seq_label_alg` uses it: only fresh
labels are registered, and only registered labels are united. -/
def WFOps : Finset Nat → List Op → Prop
  | _, [] => True
  | K, Op.register n :: rest => n ∉ K ∧ WFOps (insert n K) rest
  | K, Op.unite a b :: rest => a ∈ K ∧ b ∈ K ∧ WFOps K rest

instance WFOps.dec : ∀ (K : Finset Nat) (l : List Op), Decidable (WFOps K l)
  | _, [] => Decidable.isTrue trivial
  | K, Op.register n :: rest =>
    @instDecidableAnd _ _ _ (WFOps.dec (insert n K) rest)
  | K, Op.unite a b :: rest =>
    @instDecidableAnd _ _ _ (@instDecidableAnd _ _ _ (WFOps.dec K rest))

/-- The pairs recorded by the `unite` operations of a sequence. -/
def unitePairs : List Op → List (Nat × Nat)
  | [] => []
  | Op.unite a b :: rest => (a, b) :: unitePairs rest
  | Op.register _ :: rest => unitePairs rest

/-- "Ever merged into the same class": the equivalence closure of the
recorded union pairs. -/
inductive EqCl (ps : List (Nat × Nat)) : Nat → Nat → Prop
  | base (a b : Nat) : (a, b) ∈ ps → EqCl ps a b
  | refl (a : Nat) : EqCl ps a a
  | symm {a b : Nat} : EqCl ps a b → EqCl ps b a
  | trans {a b c : Nat} : EqCl ps a b → EqCl ps b c → EqCl ps a c

theorem EqCl.mono {ps ps' : List (Nat × Nat)} (hsub : ∀ p ∈ ps, p ∈ ps') {x y : Nat}
    (h : EqCl ps x y) : EqCl ps' x y := by
  induction h with
  | base a b hab => exact .base a b (hsub _ hab)
  | refl a => exact .refl a
  | symm _ ih => exact ih.symm
  | trans _ _ ih1 ih2 => exact ih1.trans ih2

/-- A label appearing in some recorded pair. -/
def memPairs (ps : List (Nat × Nat)) (x : Nat) : Prop :=
  ∃ p ∈ ps, p.1 = x ∨ p.2 = x

theorem EqCl.mem_of_ne {ps : List (Nat × Nat)} {x y : Nat}
    (h : EqCl ps x y) (hne : x ≠ y) : memPairs ps x ∧ memPairs ps y := by
  induction h with
  | base a b hab => exact ⟨⟨(a, b), hab, Or.inl rfl⟩, ⟨(a, b), hab, Or.inr rfl⟩⟩
  | refl a => exact absurd rfl hne
  | symm _ ih => exact (ih (Ne.symm hne)).symm
  | trans h1 h2 ih1 ih2 =>
    rename_i u v w
    by_cases huv : u = v
    · exact huv ▸ ih2 (huv ▸ hne)
    · by_cases hvw : v = w
      · exact hvw ▸ ih1 (hvw ▸ hne)
      · exact ⟨(ih1 huv).1, (ih2 hvw).2⟩

/-- Adding one recorded pair `(a, b)` to the closure: a new connection
either existed already or passes through the new pair in one of its two
orientations. -/
theorem EqCl.append_pair {ps : List (Nat × Nat)} {a b x y : Nat}
    (h : EqCl (ps ++ [(a, b)]) x y) :
    EqCl ps x y ∨ (EqCl ps x a ∧ EqCl ps b y) ∨ (EqCl ps x b ∧ EqCl ps a y) := by
  induction h with
  | base u v huv =>
    rcases List.mem_append.mp huv with h | h
    · exact Or.inl (.base u v h)
    · have heq := List.mem_singleton.mp h
      have hu : u = a := congrArg Prod.fst heq
      have hv : v = b := congrArg Prod.snd heq
      subst hu hv
      exact Or.inr (Or.inl ⟨.refl u, .refl v⟩)
  | refl u => exact Or.inl (.refl u)
  | symm _ ih =>
    rcases ih with h1 | ⟨h1, h2⟩ | ⟨h1, h2⟩
    · exact Or.inl h1.symm
    · exact Or.inr (Or.inr ⟨h2.symm, h1.symm⟩)
    · exact Or.inr (Or.inl ⟨h2.symm, h1.symm⟩)
  | trans _ _ ih1 ih2 =>
    rcases ih1 with h1 | ⟨h1, h2⟩ | ⟨h1, h2⟩ <;>
      rcases ih2 with g1 | ⟨g1, g2⟩ | ⟨g1, g2⟩
    · exact Or.inl (h1.trans g1)
    · exact Or.inr (Or.inl ⟨h1.trans g1, g2⟩)
    · exact Or.inr (Or.inr ⟨h1.trans g1, g2⟩)
    · exact Or.inr (Or.inl ⟨h1, h2.trans g1⟩)
    · exact Or.inr (Or.inl ⟨h1, g2⟩)
    · exact Or.inl (h1.trans g2)
    · exact Or.inr (Or.inr ⟨h1, h2.trans g1⟩)
    · exact Or.inl (h1.trans g2)
    · exact Or.inr (Or.inr ⟨h1, g2⟩)

/-- The run invariant: the table is well-formed, records precisely the
classes generated by the recorded pairs, and each canonical
representative belongs to its own class. -/
def Inv (ps : List (Nat × Nat)) (d : DSU) : Prop :=
  WFd d ∧
  (∀ p ∈ ps, p.1 ∈ d.keys ∧ p.2 ∈ d.keys) ∧
  (∀ x ∈ d.keys, EqCl ps x (droot d x)) ∧
  (∀ x y, x ∈ d.keys → EqCl ps x y → y ∈ d.keys ∧ droot d x = droot d y)

theorem runOps_inv : ∀ (ops : List Op) (d : DSU) (ps : List (Nat × Nat)),
    Inv ps d → WFOps d.keys ops →
    ∃ d', runOps ops d = some d' ∧ Inv (ps ++ unitePairs ops) d' := by
  intro ops
  induction ops with
  | nil =>
    intro d ps hinv _
    exact ⟨d, rfl, by simpa [unitePairs] using hinv⟩
  | cons op rest ih =>
    intro d ps hinv hwfo
    obtain ⟨hwf, hpairs, hcls, hresp⟩ := hinv
    cases op with
    | register n =>
      obtain ⟨hn, hrest⟩ := hwfo
      have hagree : ∀ y ∈ d.keys, Function.update d.parent n n y = d.parent y := by
        intro y hy
        rw [Function.update_apply, if_neg (by rintro rfl; exact hn hy)]
      have hdr : ∀ x ∈ d.keys, droot (addKey d n) x = droot d x := by
        intro x hx
        exact droot_congr d hwf _ _ hagree x hx
      have hwf2 : WFd (addKey d n) := by
        intro x hx
        rcases Finset.mem_insert.mp hx with rfl | hx'
        · show (Function.update d.parent x x x ∈ insert x d.keys) ∧
            Function.update d.parent x x x ≤ x
          rw [Function.update_apply, if_pos rfl]
          exact ⟨Finset.mem_insert_self x _, le_refl x⟩
        · show (Function.update d.parent n n x ∈ insert n d.keys) ∧
            Function.update d.parent n n x ≤ x
          rw [hagree x hx']
          exact ⟨Finset.mem_insert_of_mem (hwf x hx').1, (hwf x hx').2⟩
      have hrootn : droot (addKey d n) n = n := by
        apply droot_of_isRoot
        show Function.update d.parent n n n = n
        rw [Function.update_apply, if_pos rfl]
      have hinv2 : Inv ps (addKey d n) := by
        refine ⟨hwf2, ?_, ?_, ?_⟩
        · intro p hp
          exact ⟨Finset.mem_insert_of_mem (hpairs p hp).1,
            Finset.mem_insert_of_mem (hpairs p hp).2⟩
        · intro x hx
          rcases Finset.mem_insert.mp hx with rfl | hx'
          · rw [hrootn]; exact .refl x
          · rw [hdr x hx']; exact hcls x hx'
        · intro x y hx hxy
          rcases Finset.mem_insert.mp hx with rfl | hx'
          · by_cases hxy' : x = y
            · exact hxy' ▸ ⟨hx, rfl⟩
            · exfalso
              obtain ⟨⟨p, hp, hor⟩, _⟩ := hxy.mem_of_ne hxy'
              rcases hor with h | h
              · exact hn (h ▸ (hpairs p hp).1)
              · exact hn (h ▸ (hpairs p hp).2)
          · obtain ⟨hyk, hde⟩ := hresp x y hx' hxy
            exact ⟨Finset.mem_insert_of_mem hyk, by rw [hdr x hx', hdr y hyk, hde]⟩
      obtain ⟨d', hrun, hinv'⟩ := ih (addKey d n) ps hinv2 hrest
      exact ⟨d', hrun, by simpa [unitePairs] using hinv'⟩
    | unite a b =>
      obtain ⟨haK, hbK, hrest⟩ := hwfo
      obtain ⟨e, hun, hek, hewf, hedr, _⟩ := unionD_ok d hwf a b haK hbK
      have hra := hcls a haK
      have hrb := hcls b hbK
      have hmono : ∀ {u v : Nat}, EqCl ps u v → EqCl (ps ++ [(a, b)]) u v :=
        fun h => h.mono (fun p hp => List.mem_append_left _ hp)
      have hchain : EqCl (ps ++ [(a, b)])
          (max (droot d a) (droot d b)) (min (droot d a) (droot d b)) := by
        by_cases hle : droot d a ≤ droot d b
        · rw [max_eq_right hle, min_eq_left hle]
          exact ((hmono hrb).symm.trans
            ((EqCl.base a b (List.mem_append_right _ (List.mem_singleton_self _))).symm.trans
              (hmono hra))).symm.symm
        · rw [max_eq_left (by omega), min_eq_right (by omega)]
          exact ((hmono hra).symm.trans
            ((EqCl.base a b (List.mem_append_right _ (List.mem_singleton_self _))).trans
              (hmono hrb)))
      have hinv2 : Inv (ps ++ [(a, b)]) e := by
        refine ⟨hewf, ?_, ?_, ?_⟩
        · intro p hp
          rw [hek]
          rcases List.mem_append.mp hp with h | h
          · exact hpairs p h
          · have heq := List.mem_singleton.mp h
            rw [heq]
            exact ⟨haK, hbK⟩
        · intro x hx
          rw [hek] at hx
          rw [hedr x hx]
          by_cases hc : droot d x = max (droot d a) (droot d b)
          · rw [if_pos hc]
            exact (hmono (hcls x hx)).trans (hc ▸ hchain)
          · rw [if_neg hc]
            exact hmono (hcls x hx)
        · intro x y hx hxy
          rw [hek] at hx ⊢
          rcases hxy.append_pair with h1 | ⟨h1, h2⟩ | ⟨h1, h2⟩
          · obtain ⟨hyk, hde⟩ := hresp x y hx h1
            refine ⟨hyk, ?_⟩
            rw [hedr x hx, hedr y hyk, hde]
          · obtain ⟨_, hdxa⟩ := hresp x a hx h1
            obtain ⟨hyk, hdby⟩ := hresp b y hbK h2
            refine ⟨hyk, ?_⟩
            rw [hedr x hx, hedr y hyk, hdxa, ← hdby]
            rcases le_total (droot d a) (droot d b) with hle | hle
            · rw [max_eq_right hle, min_eq_left hle, ite_self, if_pos rfl]
            · rw [max_eq_left hle, min_eq_right hle, if_pos rfl, ite_self]
          · obtain ⟨_, hdxb⟩ := hresp x b hx h1
            obtain ⟨hyk, hday⟩ := hresp a y haK h2
            refine ⟨hyk, ?_⟩
            rw [hedr x hx, hedr y hyk, hdxb, ← hday]
            rcases le_total (droot d a) (droot d b) with hle | hle
            · rw [max_eq_right hle, min_eq_left hle, if_pos rfl, ite_self]
            · rw [max_eq_left hle, min_eq_right hle, ite_self, if_pos rfl]
      have hkeyse : e.keys = d.keys := hek
      obtain ⟨d', hrun, hinv'⟩ := ih e (ps ++ [(a, b)]) hinv2 (by rw [hkeyse]; exact hrest)
      refine ⟨d', ?_, ?_⟩
      · show (match applyOp d (Op.unite a b) with
          | none => none
          | some d2 => runOps rest d2) = some d'
        show (match unionD d a b with
          | none => none
          | some d2 => runOps rest d2) = some d'
        rw [hun]
        exact hrun
      · simpa [unitePairs] using hinv'

theorem Inv_init : Inv [] dsuInit := by
  refine ⟨?_, ?_, ?_, ?_⟩
  · intro a ha
    exact absurd ha (Finset.not_mem_empty a)
  · intro p hp
    exact absurd hp (List.not_mem_nil p)
  · intro x hx
    exact absurd hx (Finset.not_mem_empty x)
  · intro x y hx _
    exact absurd hx (Finset.not_mem_empty x)

/-- C7: in the disjoint-set used by `seq_label_alg`, `union(a, b)` makes
the class root with the larger numeric value point at the root with the
smaller value and merges nothing when the roots coincide; consequently,
after any well-formed sequence of registrations and unions, `find(x)` on
a registered label `x` returns the smallest label value among all labels
ever merged into `x`'s class. -/
theorem union_find_smallest_label (ops : List Op) (x : Nat)
    (hwf : WFOps ∅ ops) (hx : x ∈ (runOpsT ops).keys) :
    (∀ (d : DSU) (a b : Nat), WFd d → a ∈ d.keys → b ∈ d.keys →
      ∃ e, unionD d a b = some e ∧
        (droot d a ≠ droot d b →
          e.parent (max (droot d a) (droot d b)) = min (droot d a) (droot d b)) ∧
        (droot d a = droot d b → ∀ z ∈ d.keys, droot e z = droot d z)) ∧
    runOps ops dsuInit = some (runOpsT ops) ∧
    (∃ e, findC (runOpsT ops) x (x + 1) = some (e, droot (runOpsT ops) x)) ∧
    EqCl (unitePairs ops) x (droot (runOpsT ops) x) ∧
    (∀ y, EqCl (unitePairs ops) x y → droot (runOpsT ops) x ≤ y) := by
  obtain ⟨d', hrun, hinv⟩ := runOps_inv ops dsuInit [] Inv_init hwf
  have hT : runOpsT ops = d' := by
    rw [runOpsT, hrun]
    rfl
  rw [hT] at hx ⊢
  obtain ⟨hwfd, _, hcls, hresp⟩ := hinv
  refine ⟨?_, hrun, ?_, ?_, ?_⟩
  · intro d a b hwfD haK hbK
    obtain ⟨e, hun, _, _, hdr, hpt⟩ := unionD_ok d hwfD a b haK hbK
    refine ⟨e, hun, hpt, ?_⟩
    intro heq z hz
    rw [hdr z hz, heq, max_self, min_self]
    by_cases hc : droot d z = droot d b
    · rw [if_pos hc, hc]
    · rw [if_neg hc]
  · obtain ⟨e, heq, _⟩ := findC_ok d' hwfd (x + 1) x hx (by omega)
    exact ⟨e, heq⟩
  · simpa using hcls x hx
  · intro y hy
    obtain ⟨hyk, hde⟩ := hresp x y hx (by simpa using hy)
    rw [hde]
    exact droot_le d' hwfd y hyk

/-- A concrete operation sequence for the C7 witness. -/
def wOps : List Op := [Op.register 4, Op.register 7, Op.register 9, Op.unite 7 9, Op.unite 9 4]

/-- Witness for C7: after registering 4, 7, 9 and uniting 7–9 then 9–4,
the class of 7 is `{4, 7, 9}` and `find(7)` answers its minimum, 4. -/
theorem union_find_smallest_label_witness :
    WFOps ∅ wOps ∧ 7 ∈ (runOpsT wOps).keys ∧
    EqCl (unitePairs wOps) 7 (droot (runOpsT wOps) 7) ∧
    (∀ y, EqCl (unitePairs wOps) 7 y → droot (runOpsT wOps) 7 ≤ y) :=
  ⟨by decide, by decide,
    (union_find_smallest_label wOps 7 (by decide) (by decide)).2.2.2.1,
    (union_find_smallest_label wOps 7 (by decide) (by decide)).2.2.2.2⟩

/-! ## Two-pass labeler (`seq_label_alg`) -/

/-- `valid_pos(i, j)`: the source's bounds check `0<=i<n and 0<=j<m`. -/
def validPos (n m : Nat) (i j : Int) : Prop :=
  0 ≤ i ∧ i < (n : Int) ∧ 0 ≤ j ∧ j < (m : Int)

instance (n m : Nat) (i j : Int) : Decidable (validPos n m i j) := by
  unfold validPos; infer_instance

/-- Functional update of a grid at one position. -/
def upd2 (f : Int → Int → Nat) (p : Pos) (v : Nat) : Int → Int → Nat :=
  fun a b => if a = p.1 ∧ b = p.2 then v else f a b

/-- Row-major scan order `for i in range(n): for j in range(m)`. -/
def scanAll (n m : Nat) : List Pos :=
  (List.range n).flatMap fun i =>
    (List.range m).map fun (j : Nat) => ((i : Int), (j : Int))

/-- Strict row-major (scan) order on positions. -/
def scanLt (q p : Pos) : Prop := q.1 < p.1 ∨ (q.1 = p.1 ∧ q.2 < p.2)

/-- State of the first pass: the provisional label map, the equivalence
table, and the next fresh label. -/
structure TPState where
  labeled : Int → Int → Nat
  table : DSU
  label : Nat

/-- The body of the first pass at one cell: the neighbour-priority
cascade of `seq_label_alg` (up-left diagonal; up and left; up; left;
fresh label). -/
def tpCell (R : Raster) (s : TPState) (p : Pos) : Option TPState :=
  if R.data p.1 p.2 ≠ 0 then
    if validPos R.h R.w (p.1 - 1) (p.2 - 1) ∧ s.labeled (p.1 - 1) (p.2 - 1) ≠ 0 then
      some ⟨upd2 s.labeled p (s.labeled (p.1 - 1) (p.2 - 1)), s.table, s.label⟩
    else if validPos R.h R.w (p.1 - 1) p.2 ∧ s.labeled (p.1 - 1) p.2 ≠ 0 ∧
        validPos R.h R.w p.1 (p.2 - 1) ∧ s.labeled p.1 (p.2 - 1) ≠ 0 then
      match unionD s.table (s.labeled (p.1 - 1) p.2) (s.labeled p.1 (p.2 - 1)) with
      | none => none
      | some t =>
        some ⟨upd2 s.labeled p (min (s.labeled (p.1 - 1) p.2) (s.labeled p.1 (p.2 - 1))),
          t, s.label⟩
    else if validPos R.h R.w (p.1 - 1) p.2 ∧ s.labeled (p.1 - 1) p.2 ≠ 0 then
      some ⟨upd2 s.labeled p (s.labeled (p.1 - 1) p.2), s.table, s.label⟩
    else if validPos R.h R.w p.1 (p.2 - 1) ∧ s.labeled p.1 (p.2 - 1) ≠ 0 then
      some ⟨upd2 s.labeled p (s.labeled p.1 (p.2 - 1)), s.table, s.label⟩
    else
      some ⟨upd2 s.labeled p s.label, addKey s.table s.label, s.label + 1⟩
  else some s

def tpPass1 (R : Raster) : List Pos → TPState → Option TPState
  | [], s => some s
  | p :: rest, s =>
    match tpCell R s p with
    | none => none
    | some s' => tpPass1 R rest s'

/-- The body of the second (resolution) pass at one cell:
`labeled[i, j] = find(labeled[i, j]); labels.add(labeled[i, j])`. -/
def tpCell2 (s : TPState) (ls : Finset Nat) (p : Pos) : Option (TPState × Finset Nat) :=
  match findC s.table (s.labeled p.1 p.2) (s.labeled p.1 p.2 + 1) with
  | none => none
  | some (t, r) => some (⟨upd2 s.labeled p r, t, s.label⟩, insert r ls)

def tpPass2 : List Pos → TPState → Finset Nat → Option (TPState × Finset Nat)
  | [], s, ls => some (s, ls)
  | p :: rest, s, ls =>
    match tpCell2 s ls p with
    | none => none
    | some (s', ls') => tpPass2 rest s' ls'

/-- The initial first-pass state: all-zero label map, `equiv_table = {0:0}`,
next label 1. -/
def tpInit : TPState := ⟨fun _ _ => 0, ⟨{0}, fun n => n⟩, 1⟩

/-- `seq_label_alg(image)`: first pass, then the resolution pass with the
label set seeded by `labels = set([0])`; `none` models a `KeyError`
escaping `find`. -/
def seq_label_alg (R : Raster) : Option (Finset Nat × (Int → Int → Nat)) :=
  match tpPass1 R (scanAll R.h R.w) tpInit with
  | none => none
  | some s1 =>
    match tpPass2 (scanAll R.h R.w) s1 {0} with
    | none => none
    | some (s2, ls) => some (ls, s2.labeled)

/-! ### Scan-order lemmas -/

theorem upd2_self (f : Int → Int → Nat) (p : Pos) (v : Nat) :
    upd2 f p v p.1 p.2 = v := by
  unfold upd2
  simp

theorem upd2_other (f : Int → Int → Nat) (p q : Pos) (v : Nat) (h : q ≠ p) :
    upd2 f p v q.1 q.2 = f q.1 q.2 := by
  unfold upd2
  rw [if_neg]
  intro hc
  exact h (Prod.ext_iff.mpr ⟨hc.1, hc.2⟩)

theorem mem_scanAll (n m : Nat) (p : Pos) :
    p ∈ scanAll n m ↔ validPos n m p.1 p.2 := by
  constructor
  · intro hp
    simp only [scanAll, List.mem_flatMap, List.mem_map, List.mem_range] at hp
    obtain ⟨i, hi, j, hj, rfl⟩ := hp
    unfold validPos
    refine ⟨by omega, by omega, by omega, by omega⟩
  · intro hv
    unfold validPos at hv
    simp only [scanAll, List.mem_flatMap, List.mem_map, List.mem_range]
    refine ⟨p.1.toNat, by omega, p.2.toNat, by omega, ?_⟩
    rw [Prod.ext_iff]
    constructor
    · show ((p.1.toNat : Int)) = p.1
      omega
    · show ((p.2.toNat : Int)) = p.2
      omega

theorem scanAll_pairwise (n m : Nat) : List.Pairwise scanLt (scanAll n m) := by
  rw [scanAll, List.pairwise_flatMap]
  constructor
  · intro i _
    rw [List.pairwise_map]
    apply List.Pairwise.imp ?_ (List.pairwise_lt_range m)
    intro a b hab
    right
    exact ⟨rfl, by omega⟩
  · apply List.Pairwise.imp ?_ (List.pairwise_lt_range n)
    intro a b hab x hx y hy
    rcases List.mem_map.mp hx with ⟨ja, _, rfl⟩
    rcases List.mem_map.mp hy with ⟨jb, _, rfl⟩
    left
    show (a : Int) < (b : Int)
    omega

theorem scanLt_irrefl (q : Pos) : ¬scanLt q q := by
  unfold scanLt
  omega

theorem scanAll_nodup (n m : Nat) : (scanAll n m).Nodup := by
  apply List.Pairwise.imp ?_ (scanAll_pairwise n m)
  intro a b hab
  intro hc
  exact scanLt_irrefl b (hc ▸ hab)

/-- Decomposing the scan at the current cell: the current cell is
in-bounds and unprocessed, and the processed cells are exactly the
in-bounds cells strictly earlier in row-major order. -/
theorem scan_decomp (n m : Nat) (done todo : List Pos) (p : Pos)
    (hsplit : scanAll n m = done ++ p :: todo) :
    validPos n m p.1 p.2 ∧ p ∉ done ∧
    ∀ q : Pos, q ∈ done ↔ (validPos n m q.1 q.2 ∧ scanLt q p) := by
  have hpw := scanAll_pairwise n m
  rw [hsplit, List.pairwise_append] at hpw
  obtain ⟨hpw1, hpw2, hcross⟩ := hpw
  refine ⟨?_, ?_, ?_⟩
  · have hmem : p ∈ scanAll n m := by rw [hsplit]; simp
    exact (mem_scanAll n m p).mp hmem
  · intro hp
    exact scanLt_irrefl p (hcross p hp p (by simp))
  · intro q
    constructor
    · intro hq
      have hmem : q ∈ scanAll n m := by rw [hsplit]; simp [hq]
      exact ⟨(mem_scanAll n m q).mp hmem, hcross q hq p (by simp)⟩
    · rintro ⟨hv, hlt⟩
      have hmem : q ∈ scanAll n m := (mem_scanAll n m q).mpr hv
      rw [hsplit] at hmem
      rcases List.mem_append.mp hmem with h | h
      · exact h
      · rcases List.mem_cons.mp h with rfl | h
        · exact absurd hlt (scanLt_irrefl q)
        · exfalso
          have hlt2 : scanLt p q := (List.pairwise_cons.mp hpw2).1 q h
          unfold scanLt at hlt hlt2
          omega

/-- 4-connected (orthogonal-edge) adjacency of two positions. -/
def Adj (p q : Pos) : Prop :=
  (p.1 - q.1).natAbs + (p.2 - q.2).natAbs = 1

instance (p q : Pos) : Decidable (Adj p q) := by
  unfold Adj; infer_instance

theorem Adj.symm' {p q : Pos} (h : Adj p q) : Adj q p := by
  unfold Adj at *
  omega

/-- A processed cell adjacent to the current cell is its up or its left
neighbour (down and right come later in scan order). -/
theorem adj_done_cases (n m : Nat) (done : List Pos) (p q : Pos)
    (hdone : ∀ r : Pos, r ∈ done ↔ (validPos n m r.1 r.2 ∧ scanLt r p))
    (hq : q ∈ done) (hadj : Adj p q) :
    q = (p.1 - 1, p.2) ∨ q = (p.1, p.2 - 1) := by
  have hlt : scanLt q p := ((hdone q).mp hq).2
  unfold scanLt at hlt
  unfold Adj at hadj
  by_cases hc : q.1 = p.1
  · right
    rw [Prod.ext_iff]
    constructor
    · show q.1 = p.1
      omega
    · show q.2 = p.2 - 1
      omega
  · left
    rw [Prod.ext_iff]
    constructor
    · show q.1 = p.1 - 1
      omega
    · show q.2 = p.2
      omega

/-! ### Fresh-key lemmas for `addKey` -/

theorem addKey_wf (d : DSU) (hwf : WFd d) (n : Nat) : WFd (addKey d n) := by
  intro x hx
  rcases Finset.mem_insert.mp hx with rfl | hx'
  · show (Function.update d.parent x x x ∈ insert x d.keys) ∧
      Function.update d.parent x x x ≤ x
    rw [Function.update_apply, if_pos rfl]
    exact ⟨Finset.mem_insert_self x _, le_refl x⟩
  · by_cases hxn : x = n
    · subst hxn
      show (Function.update d.parent x x x ∈ insert x d.keys) ∧
        Function.update d.parent x x x ≤ x
      rw [Function.update_apply, if_pos rfl]
      exact ⟨Finset.mem_insert_self x _, le_refl x⟩
    · show (Function.update d.parent n n x ∈ insert n d.keys) ∧
        Function.update d.parent n n x ≤ x
      rw [Function.update_apply, if_neg hxn]
      exact ⟨Finset.mem_insert_of_mem (hwf x hx').1, (hwf x hx').2⟩

theorem addKey_droot_of_mem (d : DSU) (hwf : WFd d) (n : Nat) (hn : n ∉ d.keys) :
    ∀ x ∈ d.keys, droot (addKey d n) x = droot d x := by
  intro x hx
  apply droot_congr d hwf _ _ ?_ x hx
  intro y hy
  rw [Function.update_apply, if_neg (by rintro rfl; exact hn hy)]

theorem addKey_droot_self (d : DSU) (n : Nat) : droot (addKey d n) n = n := by
  apply droot_of_isRoot
  show Function.update d.parent n n n = n
  rw [Function.update_apply, if_pos rfl]

/-! ### The first-pass invariant -/

/-- Invariant of the first pass after processing the cells of `done`:
the table is well-formed with key set `{0, …, label-1}`; a cell carries a
non-zero provisional label exactly when it is a processed in-bounds
foreground cell, and that label is `< label`; `0` is alone in its class;
and any two processed 4-adjacent foreground cells are already in the same
class. -/
def TPInv (R : Raster) (done : List Pos) (s : TPState) : Prop :=
  WFd s.table ∧
  s.table.keys = Finset.range s.label ∧
  1 ≤ s.label ∧
  (∀ q : Pos, s.labeled q.1 q.2 ≠ 0 →
    q ∈ done ∧ validPos R.h R.w q.1 q.2 ∧ R.data q.1 q.2 ≠ 0) ∧
  (∀ q ∈ done, validPos R.h R.w q.1 q.2 → R.data q.1 q.2 ≠ 0 →
    s.labeled q.1 q.2 ≠ 0 ∧ s.labeled q.1 q.2 < s.label) ∧
  (∀ x ∈ s.table.keys, x ≠ 0 → droot s.table x ≠ 0) ∧
  (∀ q q' : Pos, q ∈ done → q' ∈ done → validPos R.h R.w q.1 q.2 →
    validPos R.h R.w q'.1 q'.2 → R.data q.1 q.2 ≠ 0 → R.data q'.1 q'.2 ≠ 0 →
    Adj q q' → droot s.table (s.labeled q.1 q.2) = droot s.table (s.labeled q'.1 q'.2))

theorem tpInv_init (R : Raster) : TPInv R [] tpInit := by
  refine ⟨?_, ?_, le_refl 1, ?_, ?_, ?_, ?_⟩
  · intro a ha
    have : a = 0 := Finset.mem_singleton.mp ha
    subst this
    exact ⟨ha, le_refl 0⟩
  · rfl
  · intro q hq
    exact absurd rfl hq
  · intro q hq
    exact absurd hq (List.not_mem_nil q)
  · intro x hx hxne
    exact absurd (Finset.mem_singleton.mp hx) hxne
  · intro q q' hq
    exact absurd hq (List.not_mem_nil q)

/-- Processing a background cell changes nothing and preserves the
invariant. -/
theorem tpInv_extend_bg (R : Raster) (done : List Pos) (p : Pos) (s : TPState)
    (hinv : TPInv R done s) (hbg : R.data p.1 p.2 = 0) :
    TPInv R (done ++ [p]) s := by
  obtain ⟨hwf, hkeys, hlab1, hD, hE, hG, hF⟩ := hinv
  refine ⟨hwf, hkeys, hlab1, ?_, ?_, hG, ?_⟩
  · intro q hq
    obtain ⟨h1, h2, h3⟩ := hD q hq
    exact ⟨List.mem_append_left _ h1, h2, h3⟩
  · intro q hq hqv hqfg
    rcases List.mem_append.mp hq with hq | hq
    · exact hE q hq hqv hqfg
    · rw [List.mem_singleton.mp hq] at hqfg
      exact absurd hbg hqfg
  · intro q q' hq hq' hqv hq'v hqfg hq'fg hadj
    have hq2 : q ∈ done := by
      rcases List.mem_append.mp hq with h | h
      · exact h
      · rw [List.mem_singleton.mp h] at hqfg
        exact absurd hbg hqfg
    have hq'2 : q' ∈ done := by
      rcases List.mem_append.mp hq' with h | h
      · exact h
      · rw [List.mem_singleton.mp h] at hq'fg
        exact absurd hbg hq'fg
    exact hF q q' hq2 hq'2 hqv hq'v hqfg hq'fg hadj

/-- Copying the label of an already-processed neighbour `N` preserves the
invariant, provided every processed foreground neighbour of the current
cell is already in `N`'s class. -/
theorem tpInv_copy (R : Raster) (done : List Pos) (p N : Pos) (s : TPState)
    (hpd : p ∉ done) (hvp : validPos R.h R.w p.1 p.2)
    (hinv : TPInv R done s) (hfgp : R.data p.1 p.2 ≠ 0)
    (hNd : N ∈ done) (hNv : validPos R.h R.w N.1 N.2) (hNfg : R.data N.1 N.2 ≠ 0)
    (hadjN : ∀ q : Pos, q ∈ done → validPos R.h R.w q.1 q.2 → R.data q.1 q.2 ≠ 0 →
      Adj p q → droot s.table (s.labeled q.1 q.2) = droot s.table (s.labeled N.1 N.2)) :
    TPInv R (done ++ [p]) ⟨upd2 s.labeled p (s.labeled N.1 N.2), s.table, s.label⟩ := by
  obtain ⟨hwf, hkeys, hlab1, hD, hE, hG, hF⟩ := hinv
  have hNlab := hE N hNd hNv hNfg
  refine ⟨hwf, hkeys, hlab1, ?_, ?_, hG, ?_⟩
  · intro q hq
    dsimp only at hq
    by_cases hqp : q = p
    · subst hqp
      exact ⟨List.mem_append_right _ (List.mem_singleton_self q), hvp, hfgp⟩
    · rw [upd2_other _ _ _ _ hqp] at hq
      obtain ⟨h1, h2, h3⟩ := hD q hq
      exact ⟨List.mem_append_left _ h1, h2, h3⟩
  · intro q hq hqv hqfg
    dsimp only
    rcases List.mem_append.mp hq with hqd | hqs
    · have hqp : q ≠ p := fun hc => hpd (hc ▸ hqd)
      rw [upd2_other _ _ _ _ hqp]
      exact hE q hqd hqv hqfg
    · have hqp := List.mem_singleton.mp hqs
      subst hqp
      rw [upd2_self]
      exact hNlab
  · intro q q' hq hq' hqv hq'v hqfg hq'fg hadj
    dsimp only
    rcases List.mem_append.mp hq with hqd | hqs <;>
      rcases List.mem_append.mp hq' with hq'd | hq's
    · have h1 : q ≠ p := fun hc => hpd (hc ▸ hqd)
      have h2 : q' ≠ p := fun hc => hpd (hc ▸ hq'd)
      rw [upd2_other _ _ _ _ h1, upd2_other _ _ _ _ h2]
      exact hF q q' hqd hq'd hqv hq'v hqfg hq'fg hadj
    · have h2 : q' = p := List.mem_singleton.mp hq's
      subst h2
      have h1 : q ≠ q' := fun hc => hpd (hc ▸ hqd)
      rw [upd2_other _ _ _ _ h1, upd2_self]
      exact hadjN q hqd hqv hqfg hadj.symm'
    · have h1 : q = p := List.mem_singleton.mp hqs
      subst h1
      have h2 : q' ≠ q := fun hc => hpd (hc ▸ hq'd)
      rw [upd2_other _ _ _ _ h2, upd2_self]
      exact (hadjN q' hq'd hq'v hq'fg hadj).symm
    · have h1 : q = p := List.mem_singleton.mp hqs
      have h2 : q' = p := List.mem_singleton.mp hq's
      subst h1
      rw [h2, upd2_self]

/-- After `union a b`, both `a`'s and `b`'s classes answer the smaller of
the two previous roots. -/
theorem union_redirect_min (d : DSU) (a b : Nat) (ha : a ∈ d.keys) (hb : b ∈ d.keys)
    (e : DSU)
    (hedr : ∀ x ∈ d.keys, droot e x =
      if droot d x = max (droot d a) (droot d b) then min (droot d a) (droot d b)
      else droot d x) :
    droot e a = min (droot d a) (droot d b) ∧
    droot e b = min (droot d a) (droot d b) := by
  constructor
  · rw [hedr a ha]
    rcases le_total (droot d a) (droot d b) with h | h
    · rw [max_eq_right h, min_eq_left h, ite_self]
    · rw [max_eq_left h, min_eq_right h, if_pos rfl]
  · rw [hedr b hb]
    rcases le_total (droot d a) (droot d b) with h | h
    · rw [max_eq_right h, min_eq_left h, if_pos rfl]
    · rw [max_eq_left h, min_eq_right h, ite_self]

/-- The up-and-left branch: record the equivalence of the up and left
labels and stamp the smaller of the two; the invariant is preserved and
the union always succeeds. -/
theorem tpInv_union (R : Raster) (done : List Pos) (p : Pos) (s : TPState)
    (hdone : ∀ r : Pos, r ∈ done ↔ (validPos R.h R.w r.1 r.2 ∧ scanLt r p))
    (hpd : p ∉ done) (hvp : validPos R.h R.w p.1 p.2)
    (hinv : TPInv R done s) (hfgp : R.data p.1 p.2 ≠ 0)
    (hU : s.labeled (p.1 - 1) p.2 ≠ 0) (hL : s.labeled p.1 (p.2 - 1) ≠ 0) :
    ∃ t, unionD s.table (s.labeled (p.1 - 1) p.2) (s.labeled p.1 (p.2 - 1)) = some t ∧
      TPInv R (done ++ [p])
        ⟨upd2 s.labeled p (min (s.labeled (p.1 - 1) p.2) (s.labeled p.1 (p.2 - 1))),
          t, s.label⟩ := by
  obtain ⟨hwf, hkeys, hlab1, hD, hE, hG, hF⟩ := hinv
  obtain ⟨hUd, hUv, hUfg⟩ := hD (p.1 - 1, p.2) hU
  obtain ⟨hLd, hLv, hLfg⟩ := hD (p.1, p.2 - 1) hL
  have hUlt : s.labeled (p.1 - 1) p.2 < s.label := (hE _ hUd hUv hUfg).2
  have hLlt : s.labeled p.1 (p.2 - 1) < s.label := (hE _ hLd hLv hLfg).2
  have hUk : s.labeled (p.1 - 1) p.2 ∈ s.table.keys := by
    rw [hkeys]; exact Finset.mem_range.mpr hUlt
  have hLk : s.labeled p.1 (p.2 - 1) ∈ s.table.keys := by
    rw [hkeys]; exact Finset.mem_range.mpr hLlt
  obtain ⟨t, hun, htk, htwf, htdr, _⟩ := unionD_ok s.table hwf _ _ hUk hLk
  obtain ⟨hredU, hredL⟩ := union_redirect_min s.table _ _ hUk hLk t htdr
  have hlabmem : ∀ q : Pos, s.labeled q.1 q.2 ≠ 0 → s.labeled q.1 q.2 ∈ s.table.keys := by
    intro q hq
    obtain ⟨hqd, hqv, hqfg⟩ := hD q hq
    rw [hkeys]
    exact Finset.mem_range.mpr (hE q hqd hqv hqfg).2
  have hdr_eq : ∀ u v : Nat, u ∈ s.table.keys → v ∈ s.table.keys →
      droot s.table u = droot s.table v → droot t u = droot t v := by
    intro u v hu hv huv
    rw [htdr u hu, htdr v hv, huv]
  refine ⟨t, hun, ?_, ?_, hlab1, ?_, ?_, ?_, ?_⟩
  · exact htwf
  · rw [htk, hkeys]
  · intro q hq
    dsimp only at hq
    by_cases hqp : q = p
    · subst hqp
      exact ⟨List.mem_append_right _ (List.mem_singleton_self q), hvp, hfgp⟩
    · rw [upd2_other _ _ _ _ hqp] at hq
      obtain ⟨h1, h2, h3⟩ := hD q hq
      exact ⟨List.mem_append_left _ h1, h2, h3⟩
  · intro q hq hqv hqfg
    dsimp only
    rcases List.mem_append.mp hq with hqd | hqs
    · have hqp : q ≠ p := fun hc => hpd (hc ▸ hqd)
      rw [upd2_other _ _ _ _ hqp]
      exact hE q hqd hqv hqfg
    · have hqp := List.mem_singleton.mp hqs
      subst hqp
      rw [upd2_self]
      rcases min_choice (s.labeled (q.1 - 1) q.2) (s.labeled q.1 (q.2 - 1)) with hm | hm <;>
        rw [hm] <;> omega
  · intro x hx hxne
    rw [htk] at hx
    rw [htdr x hx]
    by_cases hc : droot s.table x =
        max (droot s.table (s.labeled (p.1 - 1) p.2)) (droot s.table (s.labeled p.1 (p.2 - 1)))
    · rw [if_pos hc]
      have h1 : droot s.table (s.labeled (p.1 - 1) p.2) ≠ 0 := hG _ hUk hU
      have h2 : droot s.table (s.labeled p.1 (p.2 - 1)) ≠ 0 := hG _ hLk hL
      omega
    · rw [if_neg hc]
      exact hG x hx hxne
  · intro q q' hq hq' hqv hq'v hqfg hq'fg hadj
    dsimp only
    have hmin_root : droot t (min (s.labeled (p.1 - 1) p.2) (s.labeled p.1 (p.2 - 1))) =
        min (droot s.table (s.labeled (p.1 - 1) p.2))
          (droot s.table (s.labeled p.1 (p.2 - 1))) := by
      rcases min_choice (s.labeled (p.1 - 1) p.2) (s.labeled p.1 (p.2 - 1)) with hm | hm
      · rw [hm]; exact hredU
      · rw [hm]; exact hredL
    have hadjclass : ∀ r : Pos, r ∈ done → validPos R.h R.w r.1 r.2 → R.data r.1 r.2 ≠ 0 →
        Adj p r → droot t (s.labeled r.1 r.2) =
          min (droot s.table (s.labeled (p.1 - 1) p.2))
            (droot s.table (s.labeled p.1 (p.2 - 1))) := by
      intro r hrd hrv hrfg hradj
      rcases adj_done_cases R.h R.w done p r hdone hrd hradj with hr | hr
      · rw [hr]
        exact hredU
      · rw [hr]
        exact hredL
    rcases List.mem_append.mp hq with hqd | hqs <;>
      rcases List.mem_append.mp hq' with hq'd | hq's
    · have h1 : q ≠ p := fun hc => hpd (hc ▸ hqd)
      have h2 : q' ≠ p := fun hc => hpd (hc ▸ hq'd)
      rw [upd2_other _ _ _ _ h1, upd2_other _ _ _ _ h2]
      apply hdr_eq _ _ (hlabmem q (hE q hqd hqv hqfg).1) (hlabmem q' (hE q' hq'd hq'v hq'fg).1)
      exact hF q q' hqd hq'd hqv hq'v hqfg hq'fg hadj
    · have h2 : q' = p := List.mem_singleton.mp hq's
      subst h2
      have h1 : q ≠ q' := fun hc => hpd (hc ▸ hqd)
      rw [upd2_other _ _ _ _ h1, upd2_self, hmin_root]
      exact hadjclass q hqd hqv hqfg hadj.symm'
    · have h1 : q = p := List.mem_singleton.mp hqs
      subst h1
      have h2 : q' ≠ q := fun hc => hpd (hc ▸ hq'd)
      rw [upd2_other _ _ _ _ h2, upd2_self, hmin_root]
      exact (hadjclass q' hq'd hq'v hq'fg hadj).symm
    · have h1 : q = p := List.mem_singleton.mp hqs
      have h2 : q' = p := List.mem_singleton.mp hq's
      subst h1
      rw [h2, upd2_self]

/-- The fresh-label branch: no labeled up-left, up or left neighbour, so
a new singleton class is registered and stamped; the invariant is
preserved. -/
theorem tpInv_fresh (R : Raster) (done : List Pos) (p : Pos) (s : TPState)
    (hdone : ∀ r : Pos, r ∈ done ↔ (validPos R.h R.w r.1 r.2 ∧ scanLt r p))
    (hpd : p ∉ done) (hvp : validPos R.h R.w p.1 p.2)
    (hinv : TPInv R done s) (hfgp : R.data p.1 p.2 ≠ 0)
    (hU : ¬(validPos R.h R.w (p.1 - 1) p.2 ∧ s.labeled (p.1 - 1) p.2 ≠ 0))
    (hL : ¬(validPos R.h R.w p.1 (p.2 - 1) ∧ s.labeled p.1 (p.2 - 1) ≠ 0)) :
    TPInv R (done ++ [p])
      ⟨upd2 s.labeled p s.label, addKey s.table s.label, s.label + 1⟩ := by
  obtain ⟨hwf, hkeys, hlab1, hD, hE, hG, hF⟩ := hinv
  have hfresh : s.label ∉ s.table.keys := by
    rw [hkeys]; exact Finset.not_mem_range_self
  have hdr := addKey_droot_of_mem s.table hwf s.label hfresh
  have hlabmem : ∀ q : Pos, q ∈ done → validPos R.h R.w q.1 q.2 → R.data q.1 q.2 ≠ 0 →
      s.labeled q.1 q.2 ∈ s.table.keys := by
    intro q hqd hqv hqfg
    rw [hkeys]
    exact Finset.mem_range.mpr (hE q hqd hqv hqfg).2
  refine ⟨addKey_wf s.table hwf s.label, ?_, by dsimp only; omega, ?_, ?_, ?_, ?_⟩
  · show insert s.label s.table.keys = Finset.range (s.label + 1)
    rw [hkeys, Finset.range_succ]
  · intro q hq
    dsimp only at hq
    by_cases hqp : q = p
    · subst hqp
      exact ⟨List.mem_append_right _ (List.mem_singleton_self q), hvp, hfgp⟩
    · rw [upd2_other _ _ _ _ hqp] at hq
      obtain ⟨h1, h2, h3⟩ := hD q hq
      exact ⟨List.mem_append_left _ h1, h2, h3⟩
  · intro q hq hqv hqfg
    dsimp only
    rcases List.mem_append.mp hq with hqd | hqs
    · have hqp : q ≠ p := fun hc => hpd (hc ▸ hqd)
      rw [upd2_other _ _ _ _ hqp]
      have := hE q hqd hqv hqfg
      omega
    · have hqp := List.mem_singleton.mp hqs
      subst hqp
      rw [upd2_self]
      omega
  · intro x hx hxne
    rcases Finset.mem_insert.mp hx with rfl | hx'
    · rw [addKey_droot_self]
      omega
    · rw [hdr x hx']
      exact hG x hx' hxne
  · intro q q' hq hq' hqv hq'v hqfg hq'fg hadj
    dsimp only
    rcases List.mem_append.mp hq with hqd | hqs <;>
      rcases List.mem_append.mp hq' with hq'd | hq's
    · have h1 : q ≠ p := fun hc => hpd (hc ▸ hqd)
      have h2 : q' ≠ p := fun hc => hpd (hc ▸ hq'd)
      rw [upd2_other _ _ _ _ h1, upd2_other _ _ _ _ h2,
        hdr _ (hlabmem q hqd hqv hqfg), hdr _ (hlabmem q' hq'd hq'v hq'fg)]
      exact hF q q' hqd hq'd hqv hq'v hqfg hq'fg hadj
    · exfalso
      have h2 : q' = p := List.mem_singleton.mp hq's
      subst h2
      rcases adj_done_cases R.h R.w done q' q hdone hqd hadj.symm' with hr | hr
      · subst hr
        exact hU ⟨hqv, (hE _ hqd hqv hqfg).1⟩
      · subst hr
        exact hL ⟨hqv, (hE _ hqd hqv hqfg).1⟩
    · exfalso
      have h1 : q = p := List.mem_singleton.mp hqs
      subst h1
      rcases adj_done_cases R.h R.w done q q' hdone hq'd hadj with hr | hr
      · subst hr
        exact hU ⟨hq'v, (hE _ hq'd hq'v hq'fg).1⟩
      · subst hr
        exact hL ⟨hq'v, (hE _ hq'd hq'v hq'fg).1⟩
    · have h1 : q = p := List.mem_singleton.mp hqs
      have h2 : q' = p := List.mem_singleton.mp hq's
      subst h1
      rw [h2, upd2_self]

/-- Processing one cell of the first pass succeeds and preserves the
invariant (the full neighbour-priority case analysis). -/
theorem tpCell_inv (R : Raster) (done todo : List Pos) (p : Pos) (s : TPState)
    (hsplit : scanAll R.h R.w = done ++ p :: todo)
    (hinv : TPInv R done s) :
    ∃ s', tpCell R s p = some s' ∧ TPInv R (done ++ [p]) s' := by
  obtain ⟨hvp, hpd, hdone⟩ := scan_decomp R.h R.w done todo p hsplit
  have hD := hinv.2.2.2.1
  have hE := hinv.2.2.2.2.1
  have hF := hinv.2.2.2.2.2.2
  by_cases hfg : R.data p.1 p.2 ≠ 0
  · by_cases hc1 : validPos R.h R.w (p.1 - 1) (p.2 - 1) ∧ s.labeled (p.1 - 1) (p.2 - 1) ≠ 0
    · refine ⟨⟨upd2 s.labeled p (s.labeled (p.1 - 1) (p.2 - 1)), s.table, s.label⟩, ?_, ?_⟩
      · unfold tpCell
        rw [if_pos hfg, if_pos hc1]
      · refine tpInv_copy R done p (p.1 - 1, p.2 - 1) s hpd hvp hinv hfg
          (hD _ hc1.2).1 (hD _ hc1.2).2.1 (hD _ hc1.2).2.2 ?_
        intro q hqd hqv hqfg hadj
        rcases adj_done_cases R.h R.w done p q hdone hqd hadj with hr | hr <;> subst hr
        · exact hF _ _ hqd (hD _ hc1.2).1 hqv (hD _ hc1.2).2.1 hqfg (hD _ hc1.2).2.2
            (by unfold Adj; dsimp only; omega)
        · exact hF _ _ hqd (hD _ hc1.2).1 hqv (hD _ hc1.2).2.1 hqfg (hD _ hc1.2).2.2
            (by unfold Adj; dsimp only; omega)
    · by_cases hc2 : validPos R.h R.w (p.1 - 1) p.2 ∧ s.labeled (p.1 - 1) p.2 ≠ 0 ∧
          validPos R.h R.w p.1 (p.2 - 1) ∧ s.labeled p.1 (p.2 - 1) ≠ 0
      · obtain ⟨t, hun, hinv'⟩ := tpInv_union R done p s hdone hpd hvp hinv hfg
          hc2.2.1 hc2.2.2.2
        refine ⟨⟨upd2 s.labeled p
          (min (s.labeled (p.1 - 1) p.2) (s.labeled p.1 (p.2 - 1))), t, s.label⟩, ?_, hinv'⟩
        unfold tpCell
        rw [if_pos hfg, if_neg hc1, if_pos hc2]
        simp only [hun]
      · by_cases hc3 : validPos R.h R.w (p.1 - 1) p.2 ∧ s.labeled (p.1 - 1) p.2 ≠ 0
        · refine ⟨⟨upd2 s.labeled p (s.labeled (p.1 - 1) p.2), s.table, s.label⟩, ?_, ?_⟩
          · unfold tpCell
            rw [if_pos hfg, if_neg hc1, if_neg hc2, if_pos hc3]
          · refine tpInv_copy R done p (p.1 - 1, p.2) s hpd hvp hinv hfg
              (hD _ hc3.2).1 (hD _ hc3.2).2.1 (hD _ hc3.2).2.2 ?_
            intro q hqd hqv hqfg hadj
            rcases adj_done_cases R.h R.w done p q hdone hqd hadj with hr | hr <;> subst hr
            · rfl
            · exfalso
              exact hc2 ⟨hc3.1, hc3.2, hqv, (hE _ hqd hqv hqfg).1⟩
        · by_cases hc4 : validPos R.h R.w p.1 (p.2 - 1) ∧ s.labeled p.1 (p.2 - 1) ≠ 0
          · refine ⟨⟨upd2 s.labeled p (s.labeled p.1 (p.2 - 1)), s.table, s.label⟩, ?_, ?_⟩
            · unfold tpCell
              rw [if_pos hfg, if_neg hc1, if_neg hc2, if_neg hc3, if_pos hc4]
            · refine tpInv_copy R done p (p.1, p.2 - 1) s hpd hvp hinv hfg
                (hD _ hc4.2).1 (hD _ hc4.2).2.1 (hD _ hc4.2).2.2 ?_
              intro q hqd hqv hqfg hadj
              rcases adj_done_cases R.h R.w done p q hdone hqd hadj with hr | hr <;> subst hr
              · exfalso
                exact hc3 ⟨hqv, (hE _ hqd hqv hqfg).1⟩
              · rfl
          · refine ⟨⟨upd2 s.labeled p s.label, addKey s.table s.label, s.label + 1⟩, ?_, ?_⟩
            · unfold tpCell
              rw [if_pos hfg, if_neg hc1, if_neg hc2, if_neg hc3, if_neg hc4]
            · exact tpInv_fresh R done p s hdone hpd hvp hinv hfg hc3 hc4
  · refine ⟨s, ?_, ?_⟩
    · unfold tpCell
      rw [if_neg hfg]
    · exact tpInv_extend_bg R done p s hinv (by omega)

theorem tpPass1_inv (R : Raster) :
    ∀ (todo done : List Pos) (s : TPState),
      scanAll R.h R.w = done ++ todo → TPInv R done s →
      ∃ s', tpPass1 R todo s = some s' ∧ TPInv R (scanAll R.h R.w) s' := by
  intro todo
  induction todo with
  | nil =>
    intro done s hsplit hinv
    refine ⟨s, rfl, ?_⟩
    rw [List.append_nil] at hsplit
    rwa [hsplit]
  | cons p rest ih =>
    intro done s hsplit hinv
    obtain ⟨s1, hcell, hinv1⟩ := tpCell_inv R done rest p s hsplit hinv
    obtain ⟨s', hrest, hinv'⟩ := ih (done ++ [p]) s1
      (by rw [List.append_assoc]; exact hsplit) hinv1
    refine ⟨s', ?_, hinv'⟩
    show (match tpCell R s p with
      | none => none
      | some s2 => tpPass1 R rest s2) = some s'
    rw [hcell]
    exact hrest

theorem tpPass2_ok :
    ∀ (todo : List Pos) (s : TPState) (ls : Finset Nat),
      WFd s.table → todo.Nodup →
      (∀ q ∈ todo, s.labeled q.1 q.2 ∈ s.table.keys) →
      ∃ s' ls', tpPass2 todo s ls = some (s', ls') ∧
        WFd s'.table ∧ s'.table.keys = s.table.keys ∧
        (∀ x ∈ s.table.keys, droot s'.table x = droot s.table x) ∧
        (∀ q ∈ todo, s'.labeled q.1 q.2 = droot s.table (s.labeled q.1 q.2)) ∧
        (∀ q : Pos, q ∉ todo → s'.labeled q.1 q.2 = s.labeled q.1 q.2) := by
  intro todo
  induction todo with
  | nil =>
    intro s ls hwf _ _
    exact ⟨s, ls, rfl, hwf, rfl, fun x _ => rfl,
      fun q hq => absurd hq (List.not_mem_nil q), fun q _ => rfl⟩
  | cons p rest ih =>
    intro s ls hwf hnd hkeys
    have hpk := hkeys p (List.mem_cons_self p rest)
    obtain ⟨e, hfind, hek, hewf, hedr⟩ :=
      findC_ok s.table hwf (s.labeled p.1 p.2 + 1) (s.labeled p.1 p.2) hpk (by omega)
    obtain ⟨hp_rest, hndrest⟩ := List.nodup_cons.mp hnd
    have hkeys1 : ∀ q ∈ rest,
        upd2 s.labeled p (droot s.table (s.labeled p.1 p.2)) q.1 q.2 ∈ e.keys := by
      intro q hq
      have hqp : q ≠ p := by rintro rfl; exact hp_rest hq
      rw [upd2_other _ _ _ _ hqp, hek]
      exact hkeys q (List.mem_cons_of_mem p hq)
    obtain ⟨s', ls', hrest, hwf', hkeys', hdr', hin', hout'⟩ :=
      ih ⟨upd2 s.labeled p (droot s.table (s.labeled p.1 p.2)), e, s.label⟩
        (insert (droot s.table (s.labeled p.1 p.2)) ls) hewf hndrest hkeys1
    refine ⟨s', ls', ?_, hwf', ?_, ?_, ?_, ?_⟩
    · show (match tpCell2 s ls p with
        | none => none
        | some (s2, ls2) => tpPass2 rest s2 ls2) = some (s', ls')
      unfold tpCell2
      rw [hfind]
      exact hrest
    · rw [hkeys']
      exact hek
    · intro x hx
      rw [hdr' x (by rw [hek]; exact hx), hedr x hx]
    · intro q hq
      rcases List.mem_cons.mp hq with rfl | hqr
      · rw [hout' q (by exact hp_rest)]
        dsimp only
        rw [upd2_self]
      · have hqp : q ≠ p := by rintro rfl; exact hp_rest hqr
        rw [hin' q hqr]
        dsimp only
        rw [upd2_other _ _ _ _ hqp, hedr _ (hkeys q (List.mem_cons_of_mem p hqr))]
    · intro q hq
      have hqp : q ≠ p := by rintro rfl; exact hq (List.mem_cons_self q rest)
      have hqr : q ∉ rest := fun hc => hq (List.mem_cons_of_mem p hc)
      exact (hout' q hqr).trans (upd2_other _ _ _ _ hqp)

/-- The full contract of `seq_label_alg` needed by the claims: the run
succeeds, a cell's final label is positive exactly on foreground cells,
and 4-adjacent foreground cells share one final label. -/
theorem seq_label_spec (R : Raster) :
    ∃ ls lab, seq_label_alg R = some (ls, lab) ∧
      (∀ p : Pos, validPos R.h R.w p.1 p.2 →
        (0 < lab p.1 p.2 ↔ R.data p.1 p.2 ≠ 0)) ∧
      (∀ p q : Pos, validPos R.h R.w p.1 p.2 → validPos R.h R.w q.1 q.2 →
        R.data p.1 p.2 ≠ 0 → R.data q.1 q.2 ≠ 0 → Adj p q →
        lab p.1 p.2 = lab q.1 q.2) := by
  obtain ⟨s1, hp1, hinv⟩ := tpPass1_inv R (scanAll R.h R.w) [] tpInit rfl (tpInv_init R)
  obtain ⟨hwf, hkeys, hlab1, hD, hE, hG, hF⟩ := hinv
  have hkeymem : ∀ q ∈ scanAll R.h R.w, s1.labeled q.1 q.2 ∈ s1.table.keys := by
    intro q _
    by_cases hq0 : s1.labeled q.1 q.2 = 0
    · rw [hq0, hkeys]
      exact Finset.mem_range.mpr (by omega)
    · obtain ⟨hqd, hqv, hqfg⟩ := hD q hq0
      rw [hkeys]
      exact Finset.mem_range.mpr (hE q hqd hqv hqfg).2
  obtain ⟨s2, ls, hp2, _, _, _, hin2, _⟩ :=
    tpPass2_ok (scanAll R.h R.w) s1 {0} hwf (scanAll_nodup _ _) hkeymem
  refine ⟨ls, s2.labeled, ?_, ?_, ?_⟩
  · unfold seq_label_alg
    simp only [hp1]
    simp only [hp2]
  · intro p hpv
    have hpmem : p ∈ scanAll R.h R.w := (mem_scanAll _ _ p).mpr hpv
    rw [hin2 p hpmem]
    constructor
    · intro hpos
      by_contra hbg
      have hbg : R.data p.1 p.2 = 0 := by omega
      have h0 : s1.labeled p.1 p.2 = 0 := by
        by_contra hne2
        exact (hD p hne2).2.2 hbg
      rw [h0] at hpos
      have h0k : (0 : Nat) ∈ s1.table.keys := by
        rw [hkeys]
        exact Finset.mem_range.mpr (by omega)
      have := droot_le s1.table hwf 0 h0k
      omega
    · intro hfg
      have hlabne := (hE p hpmem hpv hfg).1
      have hlabk : s1.labeled p.1 p.2 ∈ s1.table.keys := hkeymem p hpmem
      have := hG _ hlabk hlabne
      omega
  · intro p q hpv hqv hpfg hqfg hadj
    have hpmem : p ∈ scanAll R.h R.w := (mem_scanAll _ _ p).mpr hpv
    have hqmem : q ∈ scanAll R.h R.w := (mem_scanAll _ _ q).mpr hqv
    rw [hin2 p hpmem, hin2 q hqmem]
    exact hF p q hpmem hqmem hpv hqv hpfg hqfg hadj

/-- C9: for every raster accepted by `label_two_pass`, every argument
ever passed to `find` — the label-map values read in the resolution pass,
0 for background cells included, and the roots followed recursively
inside `find` — is a registered key, so the unregistered-label failure
(`KeyError`, modelled by `none`) is unreachable: the public run always
returns a result. -/
theorem seq_label_no_keyerror (R : Raster) : ∃ out, seq_label_alg R = some out := by
  obtain ⟨ls, lab, heq, _, _⟩ := seq_label_spec R
  exact ⟨(ls, lab), heq⟩

/-! ## Flood-fill labelers (`region_growing_alg` and `region_grow_bfs`) -/

/-- The mutable context shared by the nested traversal helpers: the label
map and the visited set. -/
structure Fill where
  labeled : Int → Int → Nat
  visited : Finset Pos

/-- One guarded traversal call: `if (0 <= x < n and 0 <= y < m and (x, y)
not in visited and image[x, y] == 1)`. -/
def dfsGo (R : Raster) (rec : Pos → Fill → Fill) (q : Pos) (c : Fill) : Fill :=
  if validPos R.h R.w q.1 q.2 ∧ q ∉ c.visited ∧ R.data q.1 q.2 = 1 then rec q c else c

/-- The recursive `dfs(i, j, label)`: stamp and mark the cell, then
traverse the four neighbours in the source's order (down, right, up,
left).  Fuelled; the wrapper's fuel `H*W + 1` bounds the recursion depth
because every nested call marks a fresh cell. -/
def dfsAux (R : Raster) (lab : Nat) : Nat → Pos → Fill → Fill
  | 0, _, c => c
  | fuel + 1, p, c =>
    dfsGo R (fun q c2 => dfsAux R lab fuel q c2) (p.1, p.2 - 1)
      (dfsGo R (fun q c2 => dfsAux R lab fuel q c2) (p.1 - 1, p.2)
        (dfsGo R (fun q c2 => dfsAux R lab fuel q c2) (p.1, p.2 + 1)
          (dfsGo R (fun q c2 => dfsAux R lab fuel q c2) (p.1 + 1, p.2)
            ⟨upd2 c.labeled p lab, insert p c.visited⟩)))

/-- One enqueue attempt of `bfs`: a valid unvisited foreground neighbour
is marked at the moment it is enqueued. -/
def bfsEnq (R : Raster) (s : Fill × List Pos) (q : Pos) : Fill × List Pos :=
  if validPos R.h R.w q.1 q.2 ∧ q ∉ s.1.visited ∧ R.data q.1 q.2 = 1 then
    (⟨s.1.labeled, insert q s.1.visited⟩, s.2 ++ [q])
  else s

/-- The `while queue` loop of `bfs(i, j, label)`: pop left, stamp and
mark, enqueue the four neighbours (down, right, up, left).  Fuelled; the
wrapper's fuel bounds the iteration count. -/
def bfsAux (R : Raster) (lab : Nat) : Nat → List Pos → Fill → Fill
  | 0, _, c => c
  | _ + 1, [], c => c
  | fuel + 1, p :: rest, c =>
    let c1 : Fill := ⟨upd2 c.labeled p lab, insert p c.visited⟩
    let s4 := bfsEnq R (bfsEnq R (bfsEnq R (bfsEnq R (c1, rest)
      (p.1 + 1, p.2)) (p.1, p.2 + 1)) (p.1 - 1, p.2)) (p.1, p.2 - 1)
    bfsAux R lab fuel s4.2 s4.1

/-- The outer raster-order loop shared by both flood-fill labelers:
`if (i, j) not in visited and image[i, j] == 1: label += 1;
labels.add(label); fill(i, j, label)`. -/
structure LabState where
  labels : Finset Nat
  label : Nat
  fill : Fill

def labelLoop (R : Raster) (fill : Nat → Pos → Fill → Fill) :
    List Pos → LabState → LabState
  | [], s => s
  | p :: rest, s =>
    if p ∉ s.fill.visited ∧ R.data p.1 p.2 = 1 then
      labelLoop R fill rest
        ⟨insert (s.label + 1) s.labels, s.label + 1, fill (s.label + 1) p s.fill⟩
    else labelLoop R fill rest s

def labInit : LabState := ⟨∅, 0, ⟨fun _ _ => 0, ∅⟩⟩

/-- `region_growing_alg(image)`: depth-first flood-fill labeling. -/
def region_growing_alg (R : Raster) : Finset Nat × (Int → Int → Nat) :=
  let final := labelLoop R (fun lab p c => dfsAux R lab (R.h * R.w + 1) p c)
    (scanAll R.h R.w) labInit
  (final.labels, final.fill.labeled)

/-- `region_grow_bfs(image)`: breadth-first flood-fill labeling. -/
def region_grow_bfs (R : Raster) : Finset Nat × (Int → Int → Nat) :=
  let final := labelLoop R (fun lab p c => bfsAux R lab (2 * (R.h * R.w) + 2) [p] c)
    (scanAll R.h R.w) labInit
  (final.labels, final.fill.labeled)

/-- The 4×4 raster whose only foreground pixels are (1,1) and (2,2),
diagonally touching (the spec's concrete scenario 2). -/
def diagRaster : Raster :=
  ofRows [[0, 0, 0, 0], [0, 1, 0, 0], [0, 0, 1, 0], [0, 0, 0, 0]]

/-- C6: on `diagRaster`, the DFS and BFS flood-fill labelers each report
exactly two foreground components — each of the two pixels its own, with
labels 1 and 2 in discovery order — while `seq_label_alg`'s up-left
diagonal rule copies (1,1)'s label onto (2,2), giving both pixels the
same canonical label and exactly one foreground component. -/
theorem diag_raster_components :
    (region_growing_alg diagRaster).1 = {1, 2} ∧
    (region_growing_alg diagRaster).2 1 1 = 1 ∧
    (region_growing_alg diagRaster).2 2 2 = 2 ∧
    (region_grow_bfs diagRaster).1 = {1, 2} ∧
    (region_grow_bfs diagRaster).2 1 1 = 1 ∧
    (region_grow_bfs diagRaster).2 2 2 = 2 ∧
    (seq_label_alg diagRaster).map
      (fun out => ((out.1.filter (fun l => 0 < l)).card, out.2 1 1, out.2 2 2)) =
      some (1, 1, 1) := by
  decide

/-- C2 counterexample: on `diagRaster`, the foreground pixels (1,1) and
(2,2) receive distinct labels from `region_growing_alg` but equal
canonical labels from `seq_label_alg` — the partitions induced by the
three labelers are not identical. -/
theorem partition_not_identical_on_diag :
    diagRaster.data 1 1 = 1 ∧ diagRaster.data 2 2 = 1 ∧
    (region_growing_alg diagRaster).2 1 1 ≠ (region_growing_alg diagRaster).2 2 2 ∧
    (seq_label_alg diagRaster).map (fun out => decide (out.2 1 1 = out.2 2 2)) =
      some true := by
  decide

/-! ### Traversal correctness: both flood fills label exactly the set of
cells reachable from the seed through unvisited foreground. -/

/-- The in-bounds cells of an `n × m` grid. -/
def allCells (n m : Nat) : Finset Pos :=
  ((Finset.range n) ×ˢ (Finset.range m)).image fun q => ((q.1 : Int), (q.2 : Int))

theorem mem_allCells (n m : Nat) (p : Pos) :
    p ∈ allCells n m ↔ validPos n m p.1 p.2 := by
  constructor
  · intro hp
    simp only [allCells, Finset.mem_image, Finset.mem_product, Finset.mem_range] at hp
    obtain ⟨⟨i, j⟩, ⟨hi, hj⟩, rfl⟩ := hp
    unfold validPos
    refine ⟨by omega, by omega, by omega, by omega⟩
  · intro hv
    unfold validPos at hv
    simp only [allCells, Finset.mem_image, Finset.mem_product, Finset.mem_range]
    refine ⟨(p.1.toNat, p.2.toNat), ⟨by omega, by omega⟩, ?_⟩
    rw [Prod.ext_iff]
    constructor
    · show ((p.1.toNat : Int)) = p.1
      omega
    · show ((p.2.toNat : Int)) = p.2
      omega

/-- Count of in-bounds cells not yet visited (a termination measure). -/
def unvis (R : Raster) (c : Fill) : Nat := (allCells R.h R.w \ c.visited).card

theorem unvis_mono (R : Raster) (c c' : Fill) (h : c.visited ⊆ c'.visited) :
    unvis R c' ≤ unvis R c :=
  Finset.card_le_card (Finset.sdiff_subset_sdiff (Finset.Subset.refl _) h)

theorem unvis_insert (R : Raster) (c : Fill) (p : Pos) (lf : Int → Int → Nat)
    (hp : p ∈ allCells R.h R.w) (hnv : p ∉ c.visited) :
    unvis R ⟨lf, insert p c.visited⟩ + 1 = unvis R c := by
  unfold unvis
  have h1 : allCells R.h R.w \ insert p c.visited = (allCells R.h R.w \ c.visited).erase p := by
    ext q
    simp only [Finset.mem_sdiff, Finset.mem_insert, Finset.mem_erase]
    constructor
    · rintro ⟨hq1, hq2⟩
      exact ⟨fun hc => hq2 (Or.inl hc), hq1, fun hc => hq2 (Or.inr hc)⟩
    · rintro ⟨hq1, hq2, hq3⟩
      exact ⟨hq2, fun hc => hc.elim hq1 hq3⟩
  show (allCells R.h R.w \ insert p c.visited).card + 1 = _
  rw [h1, Finset.card_erase_of_mem (Finset.mem_sdiff.mpr ⟨hp, hnv⟩)]
  have : 0 < (allCells R.h R.w \ c.visited).card :=
    Finset.card_pos.mpr ⟨p, Finset.mem_sdiff.mpr ⟨hp, hnv⟩⟩
  omega

/-- One legal traversal move: to a 4-adjacent, in-bounds, foreground cell
that was unvisited before the fill call started. -/
def FillStep (R : Raster) (V : Finset Pos) (p q : Pos) : Prop :=
  Adj p q ∧ validPos R.h R.w q.1 q.2 ∧ R.data q.1 q.2 = 1 ∧ q ∉ V

/-- Reachability from the seed through cells unvisited at call start. -/
def Reach (R : Raster) (V : Finset Pos) (s q : Pos) : Prop :=
  Relation.ReflTransGen (FillStep R V) s q

theorem Reach.widen {R : Raster} {V V' : Finset Pos} (hsub : V ⊆ V') {s q : Pos}
    (h : Reach R V' s q) : Reach R V s q := by
  induction h with
  | refl => exact Relation.ReflTransGen.refl
  | tail _ hstep ih =>
    exact Relation.ReflTransGen.tail ih
      ⟨hstep.1, hstep.2.1, hstep.2.2.1, fun hc => hstep.2.2.2 (hsub hc)⟩

theorem Reach.props {R : Raster} {V : Finset Pos} {s q : Pos}
    (hv : validPos R.h R.w s.1 s.2) (hf : R.data s.1 s.2 = 1) (hnv : s ∉ V)
    (h : Reach R V s q) :
    validPos R.h R.w q.1 q.2 ∧ R.data q.1 q.2 = 1 ∧ q ∉ V := by
  induction h with
  | refl => exact ⟨hv, hf, hnv⟩
  | tail _ hstep _ => exact ⟨hstep.2.1, hstep.2.2.1, hstep.2.2.2⟩

theorem adj_four (p r : Pos) (h : Adj p r) :
    r = (p.1 + 1, p.2) ∨ r = (p.1, p.2 + 1) ∨ r = (p.1 - 1, p.2) ∨ r = (p.1, p.2 - 1) := by
  unfold Adj at h
  by_cases h1 : r.1 = p.1 + 1
  · left
    rw [Prod.ext_iff]
    exact ⟨h1, by omega⟩
  · by_cases h2 : r.1 = p.1 - 1
    · right; right; left
      rw [Prod.ext_iff]
      exact ⟨h2, by omega⟩
    · by_cases h3 : r.2 = p.2 + 1
      · right; left
        rw [Prod.ext_iff]
        exact ⟨by omega, h3⟩
      · right; right; right
        rw [Prod.ext_iff]
        exact ⟨by omega, by omega⟩

/-- What a flood fill from seed `p` with label `lab` does to context `c`:
the visited set grows by exactly the reachable set, reached cells are
stamped `lab`, and nothing else changes. -/
def FillSpec (R : Raster) (lab : Nat) (p : Pos) (c c' : Fill) : Prop :=
  (∀ q : Pos, q ∈ c'.visited ↔ q ∈ c.visited ∨ Reach R c.visited p q) ∧
  (∀ q : Pos, q ∈ c'.visited → q ∉ c.visited → c'.labeled q.1 q.2 = lab) ∧
  (∀ q : Pos, (q ∉ c'.visited ∨ q ∈ c.visited) → c'.labeled q.1 q.2 = c.labeled q.1 q.2) ∧
  c'.visited ⊆ allCells R.h R.w

/-- The fill contract determines the result uniquely: any two
implementations agreeing with `FillSpec` produce equal contexts. -/
theorem FillSpec_unique (R : Raster) (lab : Nat) (p : Pos) (c c1 c2 : Fill)
    (h1 : FillSpec R lab p c c1) (h2 : FillSpec R lab p c c2) : c1 = c2 := by
  obtain ⟨hv1, hn1, ho1, _⟩ := h1
  obtain ⟨hv2, hn2, ho2, _⟩ := h2
  have hvis : c1.visited = c2.visited := by
    ext q
    rw [hv1 q, hv2 q]
  have hlab : c1.labeled = c2.labeled := by
    funext i j
    by_cases hV : ((i, j) : Pos) ∈ c.visited
    · rw [ho1 (i, j) (Or.inr hV), ho2 (i, j) (Or.inr hV)]
    · by_cases hR : Reach R c.visited p (i, j)
      · rw [hn1 (i, j) ((hv1 (i, j)).mpr (Or.inr hR)) hV,
          hn2 (i, j) ((hv2 (i, j)).mpr (Or.inr hR)) hV]
      · have hq1 : ((i, j) : Pos) ∉ c1.visited := by
          rw [hv1 (i, j)]
          rintro (hc | hc)
          · exact hV hc
          · exact hR hc
        have hq2 : ((i, j) : Pos) ∉ c2.visited := by
          rw [hv2 (i, j)]
          rintro (hc | hc)
          · exact hV hc
          · exact hR hc
        rw [ho1 (i, j) (Or.inl hq1), ho2 (i, j) (Or.inl hq2)]
  cases c1
  cases c2
  simp only at hvis hlab
  rw [hvis, hlab]

/-- Precondition of a fill call: in-bounds unvisited foreground seed,
visited set inside the grid. -/
def DfsPre (R : Raster) (p : Pos) (c : Fill) : Prop :=
  validPos R.h R.w p.1 p.2 ∧ R.data p.1 p.2 = 1 ∧ p ∉ c.visited ∧
  c.visited ⊆ allCells R.h R.w

/-- Postcondition of a fill call, inductively provable form (monotone
visited growth, soundness, closedness of the new cells, stamping). -/
def DfsPost (R : Raster) (lab : Nat) (p : Pos) (c c' : Fill) : Prop :=
  c.visited ⊆ c'.visited ∧ c'.visited ⊆ allCells R.h R.w ∧ p ∈ c'.visited ∧
  (∀ q : Pos, q ∈ c'.visited → q ∈ c.visited ∨ Reach R c.visited p q) ∧
  (∀ q : Pos, q ∈ c'.visited → q ∉ c.visited →
    ∀ r : Pos, Adj q r → validPos R.h R.w r.1 r.2 → R.data r.1 r.2 = 1 →
      r ∈ c'.visited) ∧
  (∀ q : Pos, q ∈ c'.visited → q ∉ c.visited → c'.labeled q.1 q.2 = lab) ∧
  (∀ q : Pos, (q ∉ c'.visited ∨ q ∈ c.visited) → c'.labeled q.1 q.2 = c.labeled q.1 q.2)

/-- Invariant along the four-neighbour chain inside one `dfs` call with
seed `p` and pre-call context `c`: everything visited so far beyond the
pre-call set is reachable, stamped, and (except `p`, whose neighbour loop
is still running) closed. -/
def DChain (R : Raster) (lab : Nat) (p : Pos) (c : Fill) (c1 : Fill) : Prop :=
  insert p c.visited ⊆ c1.visited ∧ c1.visited ⊆ allCells R.h R.w ∧
  unvis R c1 + 1 ≤ unvis R c ∧
  (∀ q : Pos, q ∈ c1.visited → q ∈ c.visited ∨ Reach R c.visited p q) ∧
  (∀ q : Pos, q ∈ c1.visited → q ∉ c.visited → q ≠ p →
    ∀ r : Pos, Adj q r → validPos R.h R.w r.1 r.2 → R.data r.1 r.2 = 1 →
      r ∈ c1.visited) ∧
  (∀ q : Pos, q ∈ c1.visited → q ∉ c.visited → c1.labeled q.1 q.2 = lab) ∧
  (∀ q : Pos, (q ∉ c1.visited ∨ q ∈ c.visited) → c1.labeled q.1 q.2 = c.labeled q.1 q.2)

theorem dchain_step (R : Raster) (lab : Nat) (fuel : Nat) (p : Pos) (c : Fill)
    (IH : ∀ p' c', DfsPre R p' c' → unvis R c' < fuel →
      DfsPost R lab p' c' (dfsAux R lab fuel p' c'))
    (hfuel : unvis R c ≤ fuel)
    (r : Pos) (hadj : Adj p r) (c1 : Fill) (hch : DChain R lab p c c1) :
    DChain R lab p c (dfsGo R (fun q c2 => dfsAux R lab fuel q c2) r c1) ∧
    c1.visited ⊆ (dfsGo R (fun q c2 => dfsAux R lab fuel q c2) r c1).visited ∧
    (validPos R.h R.w r.1 r.2 → R.data r.1 r.2 = 1 →
      r ∈ (dfsGo R (fun q c2 => dfsAux R lab fuel q c2) r c1).visited) := by
  obtain ⟨hins, hcell, hcnt, hsound, hclosed, hnew, hold⟩ := hch
  unfold dfsGo
  by_cases hg : validPos R.h R.w r.1 r.2 ∧ r ∉ c1.visited ∧ R.data r.1 r.2 = 1
  · rw [if_pos hg]
    dsimp only
    have hpre : DfsPre R r c1 := ⟨hg.1, hg.2.2, hg.2.1, hcell⟩
    have hpost := IH r c1 hpre (by omega)
    obtain ⟨pmono, pcell, pmem, psound, pclosed, pnew, pold⟩ := hpost
    have hVsub : c.visited ⊆ c1.visited := fun x hx =>
      hins (Finset.mem_insert_of_mem hx)
    have hstep : Reach R c.visited p r :=
      Relation.ReflTransGen.single ⟨hadj, hg.1, hg.2.2, fun hc => hg.2.1 (hVsub hc)⟩
    refine ⟨⟨?_, pcell, ?_, ?_, ?_, ?_, ?_⟩, pmono, fun _ _ => pmem⟩
    · exact Finset.Subset.trans hins pmono
    · have := unvis_mono R c1 (dfsAux R lab fuel r c1) pmono
      omega
    · intro q hq
      rcases psound q hq with hq1 | hq1
      · exact hsound q hq1
      · right
        exact hstep.trans (hq1.widen hVsub)
    · intro q hq hqV hqp s hads hvs hfs
      by_cases hq1 : q ∈ c1.visited
      · exact pmono (hclosed q hq1 hqV hqp s hads hvs hfs)
      · exact pclosed q hq hq1 s hads hvs hfs
    · intro q hq hqV
      by_cases hq1 : q ∈ c1.visited
      · rw [pold q (Or.inr hq1)]
        exact hnew q hq1 hqV
      · exact pnew q hq hq1
    · intro q hq
      rcases hq with hq | hq
      · have hq1 : q ∉ c1.visited := fun hc => hq (pmono hc)
        rw [pold q (Or.inl hq)]
        exact hold q (Or.inl hq1)
      · rw [pold q (Or.inr (hVsub hq))]
        exact hold q (Or.inr hq)
  · rw [if_neg hg]
    refine ⟨⟨hins, hcell, hcnt, hsound, hclosed, hnew, hold⟩,
      Finset.Subset.refl _, ?_⟩
    intro hv hf
    by_contra hr
    exact hg ⟨hv, hr, hf⟩

theorem dfsAux_succ_eq (R : Raster) (lab fuel : Nat) (p : Pos) (c : Fill) :
    dfsAux R lab (fuel + 1) p c =
      dfsGo R (fun q c2 => dfsAux R lab fuel q c2) (p.1, p.2 - 1)
        (dfsGo R (fun q c2 => dfsAux R lab fuel q c2) (p.1 - 1, p.2)
          (dfsGo R (fun q c2 => dfsAux R lab fuel q c2) (p.1, p.2 + 1)
            (dfsGo R (fun q c2 => dfsAux R lab fuel q c2) (p.1 + 1, p.2)
              ⟨upd2 c.labeled p lab, insert p c.visited⟩))) := rfl

theorem dfsAux_spec (R : Raster) (lab : Nat) :
    ∀ fuel p c, DfsPre R p c → unvis R c < fuel →
      DfsPost R lab p c (dfsAux R lab fuel p c) := by
  intro fuel
  induction fuel with
  | zero => intro p c _ h; omega
  | succ n ih =>
    intro p c hpre hfuel
    obtain ⟨hvp, hfp, hnp, hcp⟩ := hpre
    have hpcell : p ∈ allCells R.h R.w := (mem_allCells R.h R.w p).mpr hvp
    have hch0 : DChain R lab p c ⟨upd2 c.labeled p lab, insert p c.visited⟩ := by
      refine ⟨Finset.Subset.refl _, ?_, ?_, ?_, ?_, ?_, ?_⟩
      · intro x hx
        rcases Finset.mem_insert.mp hx with rfl | hx'
        · exact hpcell
        · exact hcp hx'
      · have := unvis_insert R c p (upd2 c.labeled p lab) hpcell hnp
        omega
      · intro q hq
        rcases Finset.mem_insert.mp hq with rfl | hq'
        · exact Or.inr Relation.ReflTransGen.refl
        · exact Or.inl hq'
      · intro q hq hqV hqp
        rcases Finset.mem_insert.mp hq with rfl | hq'
        · exact absurd rfl hqp
        · exact absurd hq' hqV
      · intro q hq hqV
        rcases Finset.mem_insert.mp hq with rfl | hq'
        · exact upd2_self _ _ _
        · exact absurd hq' hqV
      · intro q hq
        have hqp : q ≠ p := by
          rintro rfl
          rcases hq with hq | hq
          · exact hq (Finset.mem_insert_self q _)
          · exact hnp hq
        exact upd2_other _ _ _ _ hqp
    have hfuel' : unvis R c ≤ n := by omega
    have h1 := dchain_step R lab n p c ih hfuel' (p.1 + 1, p.2)
      (by unfold Adj; dsimp only; omega) _ hch0
    have h2 := dchain_step R lab n p c ih hfuel' (p.1, p.2 + 1)
      (by unfold Adj; dsimp only; omega) _ h1.1
    have h3 := dchain_step R lab n p c ih hfuel' (p.1 - 1, p.2)
      (by unfold Adj; dsimp only; omega) _ h2.1
    have h4 := dchain_step R lab n p c ih hfuel' (p.1, p.2 - 1)
      (by unfold Adj; dsimp only; omega) _ h3.1
    rw [dfsAux_succ_eq]
    obtain ⟨hins4, hcell4, _, hsound4, hclosed4, hnew4, hold4⟩ := h4.1
    have hpmem : p ∈ (dfsGo R (fun q c2 => dfsAux R lab n q c2) (p.1, p.2 - 1)
        (dfsGo R (fun q c2 => dfsAux R lab n q c2) (p.1 - 1, p.2)
          (dfsGo R (fun q c2 => dfsAux R lab n q c2) (p.1, p.2 + 1)
            (dfsGo R (fun q c2 => dfsAux R lab n q c2) (p.1 + 1, p.2)
              ⟨upd2 c.labeled p lab, insert p c.visited⟩)))).visited :=
      hins4 (Finset.mem_insert_self p _)
    refine ⟨?_, hcell4, hpmem, hsound4, ?_, hnew4, hold4⟩
    · intro x hx
      exact hins4 (Finset.mem_insert_of_mem hx)
    · intro q hq hqV r hadr hvr hfr
      by_cases hqp : q = p
      · subst hqp
        rcases adj_four q r hadr with hr | hr | hr | hr <;> subst hr
        · exact h4.2.1 (h3.2.1 (h2.2.1 (h1.2.2 hvr hfr)))
        · exact h4.2.1 (h3.2.1 (h2.2.2 hvr hfr))
        · exact h4.2.1 (h3.2.2 hvr hfr)
        · exact h4.2.2 hvr hfr
      · exact hclosed4 q hq hqV hqp r hadr hvr hfr

theorem reach_not_mem {R : Raster} {V : Finset Pos} {p b : Pos}
    (hp : p ∉ V) (h : Reach R V p b) : b ∉ V := by
  rcases Relation.ReflTransGen.cases_tail h with heq | ⟨c0, _, hstep⟩
  · exact heq ▸ hp
  · exact hstep.2.2.2

/-- A set containing the seed and closed under legal moves contains the
whole reachable set. -/
theorem reach_subset_of_closed (R : Raster) (V : Finset Pos) (p : Pos) (W : Finset Pos)
    (hpv : p ∉ V) (hp : p ∈ W)
    (hclosed : ∀ q : Pos, q ∈ W → q ∉ V →
      ∀ r : Pos, Adj q r → validPos R.h R.w r.1 r.2 → R.data r.1 r.2 = 1 → r ∈ W) :
    ∀ q, Reach R V p q → q ∈ W := by
  intro q hq
  induction hq with
  | refl => exact hp
  | tail hsteps hstep ih =>
    exact hclosed _ ih (reach_not_mem hpv hsteps) _ hstep.1 hstep.2.1 hstep.2.2.1

theorem allCells_card (n m : Nat) : (allCells n m).card ≤ n * m := by
  unfold allCells
  calc (((Finset.range n) ×ˢ (Finset.range m)).image
      fun q => ((q.1 : Int), (q.2 : Int))).card
      ≤ ((Finset.range n) ×ˢ (Finset.range m)).card := Finset.card_image_le
    _ = n * m := by rw [Finset.card_product, Finset.card_range, Finset.card_range]

/-- A `DfsPost` together with the fuel bound yields the black-box fill
contract `FillSpec`. -/
theorem DfsPost_fillSpec (R : Raster) (lab : Nat) (p : Pos) (c c' : Fill)
    (hpre : DfsPre R p c) (hpost : DfsPost R lab p c c') :
    FillSpec R lab p c c' := by
  obtain ⟨hvp, hfp, hnp, _⟩ := hpre
  obtain ⟨hmono, hcell, hpmem, hsound, hclosed, hnew, hold⟩ := hpost
  refine ⟨?_, hnew, hold, hcell⟩
  intro q
  constructor
  · exact hsound q
  · intro hq
    rcases hq with hq | hq
    · exact hmono hq
    · exact reach_subset_of_closed R c.visited p c'.visited hnp hpmem hclosed q hq

theorem fuel_enough (R : Raster) (c : Fill) : unvis R c < R.h * R.w + 1 := by
  have h1 : unvis R c ≤ (allCells R.h R.w).card :=
    Finset.card_le_card (Finset.sdiff_subset)
  have h2 := allCells_card R.h R.w
  omega

theorem dfs_fillSpec (R : Raster) (lab : Nat) (p : Pos) (c : Fill)
    (hpre : DfsPre R p c) :
    FillSpec R lab p c (dfsAux R lab (R.h * R.w + 1) p c) :=
  DfsPost_fillSpec R lab p c _ hpre
    (dfsAux_spec R lab (R.h * R.w + 1) p c hpre (fuel_enough R c))

/-- BFS loop invariant: queue cells are marked, fresh, foreground and
reachable; marked non-queue cells beyond the pre-call set are closed and
stamped; queue cells still carry their pre-call label. -/
def BInv (R : Raster) (lab : Nat) (p : Pos) (c : Fill) (c1 : Fill) (Q : List Pos) : Prop :=
  insert p c.visited ⊆ c1.visited ∧ c1.visited ⊆ allCells R.h R.w ∧
  Q.Nodup ∧
  (∀ q ∈ Q, q ∈ c1.visited ∧ q ∉ c.visited ∧ validPos R.h R.w q.1 q.2 ∧
    R.data q.1 q.2 = 1 ∧ Reach R c.visited p q) ∧
  (∀ q : Pos, q ∈ c1.visited → q ∈ c.visited ∨ Reach R c.visited p q) ∧
  (∀ q : Pos, q ∈ c1.visited → q ∉ c.visited → q ∉ Q →
    ∀ r : Pos, Adj q r → validPos R.h R.w r.1 r.2 → R.data r.1 r.2 = 1 →
      r ∈ c1.visited) ∧
  (∀ q : Pos, q ∈ c1.visited → q ∉ c.visited → q ∉ Q → c1.labeled q.1 q.2 = lab) ∧
  (∀ q : Pos, (q ∉ c1.visited ∨ q ∈ c.visited ∨ q ∈ Q) →
    c1.labeled q.1 q.2 = c.labeled q.1 q.2)

/-- Invariant during the neighbour-enqueue phase for the popped cell
`q0` (whose closedness is re-established only once all four neighbours
have been examined). -/
def BMid (R : Raster) (lab : Nat) (p : Pos) (c : Fill) (q0 : Pos)
    (s : Fill × List Pos) : Prop :=
  insert p c.visited ⊆ s.1.visited ∧ s.1.visited ⊆ allCells R.h R.w ∧
  s.2.Nodup ∧ q0 ∉ s.2 ∧ q0 ∈ s.1.visited ∧ q0 ∉ c.visited ∧
  (∀ q ∈ s.2, q ∈ s.1.visited ∧ q ∉ c.visited ∧ validPos R.h R.w q.1 q.2 ∧
    R.data q.1 q.2 = 1 ∧ Reach R c.visited p q) ∧
  (∀ q : Pos, q ∈ s.1.visited → q ∈ c.visited ∨ Reach R c.visited p q) ∧
  (∀ q : Pos, q ∈ s.1.visited → q ∉ c.visited → q ∉ s.2 → q ≠ q0 →
    ∀ r : Pos, Adj q r → validPos R.h R.w r.1 r.2 → R.data r.1 r.2 = 1 →
      r ∈ s.1.visited) ∧
  (∀ q : Pos, q ∈ s.1.visited → q ∉ c.visited → q ∉ s.2 → s.1.labeled q.1 q.2 = lab) ∧
  (∀ q : Pos, (q ∉ s.1.visited ∨ q ∈ c.visited ∨ q ∈ s.2) →
    s.1.labeled q.1 q.2 = c.labeled q.1 q.2)

theorem bfsEnq_mid (R : Raster) (lab : Nat) (p : Pos) (c : Fill) (q0 : Pos)
    (hq0r : Reach R c.visited p q0)
    (r : Pos) (hadj : Adj q0 r)
    (s : Fill × List Pos) (hmid : BMid R lab p c q0 s) :
    BMid R lab p c q0 (bfsEnq R s r) ∧
    s.1.visited ⊆ (bfsEnq R s r).1.visited ∧
    (validPos R.h R.w r.1 r.2 → R.data r.1 r.2 = 1 → r ∈ (bfsEnq R s r).1.visited) ∧
    (bfsEnq R s r).2.length + 2 * unvis R (bfsEnq R s r).1 + 1 ≤
      s.2.length + 2 * unvis R s.1 + 1 := by
  obtain ⟨hins, hcell, hnd, hq0Q, hq0v, hq0c, hQ, hsound, hclosed, hstamp, hunch⟩ := hmid
  unfold bfsEnq
  by_cases hg : validPos R.h R.w r.1 r.2 ∧ r ∉ s.1.visited ∧ R.data r.1 r.2 = 1
  · rw [if_pos hg]
    dsimp only
    have hrc : r ∈ allCells R.h R.w := (mem_allCells R.h R.w r).mpr hg.1
    have hrV : r ∉ c.visited := fun hc =>
      hg.2.1 (hins (Finset.mem_insert_of_mem hc))
    have hrQ : r ∉ s.2 := fun hc => hg.2.1 (hQ r hc).1
    have hrReach : Reach R c.visited p r :=
      Relation.ReflTransGen.tail hq0r ⟨hadj, hg.1, hg.2.2, hrV⟩
    have hcnt := unvis_insert R s.1 r s.1.labeled hrc hg.2.1
    refine ⟨⟨?_, ?_, ?_, ?_, ?_, ?_, ?_, ?_, ?_, ?_, ?_⟩, ?_, ?_, ?_⟩
    · exact fun x hx => Finset.mem_insert_of_mem (hins hx)
    · intro x hx
      rcases Finset.mem_insert.mp hx with rfl | hx'
      · exact hrc
      · exact hcell hx'
    · rw [List.nodup_append]
      exact ⟨hnd, List.nodup_singleton r, fun a ha hb =>
        (List.mem_singleton.mp hb ▸ hrQ) ha⟩
    · intro hc
      rcases List.mem_append.mp hc with hc | hc
      · exact hq0Q hc
      · rw [List.mem_singleton.mp hc] at hq0v
        exact hg.2.1 hq0v
    · exact Finset.mem_insert_of_mem hq0v
    · exact hq0c
    · intro q hq
      rcases List.mem_append.mp hq with hq | hq
      · obtain ⟨h1, h2, h3, h4, h5⟩ := hQ q hq
        exact ⟨Finset.mem_insert_of_mem h1, h2, h3, h4, h5⟩
      · rw [List.mem_singleton.mp hq]
        exact ⟨Finset.mem_insert_self r _, hrV, hg.1, hg.2.2, hrReach⟩
    · intro q hq
      rcases Finset.mem_insert.mp hq with rfl | hq'
      · exact Or.inr hrReach
      · exact hsound q hq'
    · intro q hq hqc hqQ hqne r' hadr hvr hfr
      have hqQ2 : q ∉ s.2 := fun hc => hqQ (List.mem_append_left _ hc)
      rcases Finset.mem_insert.mp hq with rfl | hq'
      · exact absurd (List.mem_append_right _ (List.mem_singleton_self q)) hqQ
      · exact Finset.mem_insert_of_mem (hclosed q hq' hqc hqQ2 hqne r' hadr hvr hfr)
    · intro q hq hqc hqQ
      have hqQ2 : q ∉ s.2 := fun hc => hqQ (List.mem_append_left _ hc)
      rcases Finset.mem_insert.mp hq with rfl | hq'
      · exact absurd (List.mem_append_right _ (List.mem_singleton_self q)) hqQ
      · exact hstamp q hq' hqc hqQ2
    · intro q hq
      apply hunch
      rcases hq with hq | hq | hq
      · exact Or.inl (fun hc => hq (Finset.mem_insert_of_mem hc))
      · exact Or.inr (Or.inl hq)
      · rcases List.mem_append.mp hq with hq | hq
        · exact Or.inr (Or.inr hq)
        · rw [List.mem_singleton.mp hq]
          exact Or.inl hg.2.1
    · exact fun x hx => Finset.mem_insert_of_mem hx
    · intro _ _
      exact Finset.mem_insert_self r _
    · rw [List.length_append]
      simp only [List.length_singleton]
      omega
  · rw [if_neg hg]
    refine ⟨⟨hins, hcell, hnd, hq0Q, hq0v, hq0c, hQ, hsound, hclosed, hstamp, hunch⟩,
      Finset.Subset.refl _, ?_, by omega⟩
    intro hv hf
    by_contra hr
    exact hg ⟨hv, hr, hf⟩

/-- Once the popped cell's four neighbours have been examined, its
closedness is restored and the plain loop invariant holds again. -/
theorem BMid_to_BInv (R : Raster) (lab : Nat) (p : Pos) (c : Fill) (q0 : Pos)
    (s : Fill × List Pos) (hmid : BMid R lab p c q0 s)
    (hnb : ∀ r : Pos, Adj q0 r → validPos R.h R.w r.1 r.2 → R.data r.1 r.2 = 1 →
      r ∈ s.1.visited) :
    BInv R lab p c s.1 s.2 := by
  obtain ⟨hins, hcell, hnd, hq0Q, hq0v, hq0c, hQ, hsound, hclosed, hstamp, hunch⟩ := hmid
  refine ⟨hins, hcell, hnd, hQ, hsound, ?_, hstamp, hunch⟩
  intro q hq hqc hqQ r hadr hvr hfr
  by_cases hqq0 : q = q0
  · subst hqq0
    exact hnb r hadr hvr hfr
  · exact hclosed q hq hqc hqQ hqq0 r hadr hvr hfr

/-- The enqueue phase of one BFS iteration: all four neighbours examined,
invariant kept, measure not increased. -/
theorem bfs_enq_chain (R : Raster) (lab : Nat) (p : Pos) (c : Fill) (q0 : Pos)
    (hq0r : Reach R c.visited p q0)
    (s0 : Fill × List Pos) (hmid : BMid R lab p c q0 s0) :
    BInv R lab p c
      (bfsEnq R (bfsEnq R (bfsEnq R (bfsEnq R s0 (q0.1 + 1, q0.2)) (q0.1, q0.2 + 1))
        (q0.1 - 1, q0.2)) (q0.1, q0.2 - 1)).1
      (bfsEnq R (bfsEnq R (bfsEnq R (bfsEnq R s0 (q0.1 + 1, q0.2)) (q0.1, q0.2 + 1))
        (q0.1 - 1, q0.2)) (q0.1, q0.2 - 1)).2 ∧
    s0.1.visited ⊆
      (bfsEnq R (bfsEnq R (bfsEnq R (bfsEnq R s0 (q0.1 + 1, q0.2)) (q0.1, q0.2 + 1))
        (q0.1 - 1, q0.2)) (q0.1, q0.2 - 1)).1.visited ∧
    (bfsEnq R (bfsEnq R (bfsEnq R (bfsEnq R s0 (q0.1 + 1, q0.2)) (q0.1, q0.2 + 1))
        (q0.1 - 1, q0.2)) (q0.1, q0.2 - 1)).2.length +
      2 * unvis R (bfsEnq R (bfsEnq R (bfsEnq R (bfsEnq R s0 (q0.1 + 1, q0.2))
        (q0.1, q0.2 + 1)) (q0.1 - 1, q0.2)) (q0.1, q0.2 - 1)).1 + 1 ≤
      s0.2.length + 2 * unvis R s0.1 + 1 := by
  have h1 := bfsEnq_mid R lab p c q0 hq0r (q0.1 + 1, q0.2)
    (by unfold Adj; dsimp only; omega) s0 hmid
  have h2 := bfsEnq_mid R lab p c q0 hq0r (q0.1, q0.2 + 1)
    (by unfold Adj; dsimp only; omega) _ h1.1
  have h3 := bfsEnq_mid R lab p c q0 hq0r (q0.1 - 1, q0.2)
    (by unfold Adj; dsimp only; omega) _ h2.1
  have h4 := bfsEnq_mid R lab p c q0 hq0r (q0.1, q0.2 - 1)
    (by unfold Adj; dsimp only; omega) _ h3.1
  refine ⟨?_, ?_, ?_⟩
  · apply BMid_to_BInv R lab p c q0 _ h4.1
    intro r hadr hvr hfr
    rcases adj_four q0 r hadr with hr | hr | hr | hr <;> subst hr
    · exact h4.2.1 (h3.2.1 (h2.2.1 (h1.2.2.1 hvr hfr)))
    · exact h4.2.1 (h3.2.1 (h2.2.2.1 hvr hfr))
    · exact h4.2.1 (h3.2.2.1 hvr hfr)
    · exact h4.2.2.1 hvr hfr
  · exact Finset.Subset.trans h1.2.1 (Finset.Subset.trans h2.2.1
      (Finset.Subset.trans h3.2.1 h4.2.1))
  · have m1 := h1.2.2.2
    have m2 := h2.2.2.2
    have m3 := h3.2.2.2
    have m4 := h4.2.2.2
    omega

/-- Popping the queue head: stamp it; the mid-phase invariant holds for
the rest of the queue. -/
theorem BInv_pop (R : Raster) (lab : Nat) (p : Pos) (c : Fill) (q0 : Pos)
    (rest : List Pos) (c1 : Fill) (hinv : BInv R lab p c c1 (q0 :: rest)) :
    BMid R lab p c q0 (⟨upd2 c1.labeled q0 lab, insert q0 c1.visited⟩, rest) ∧
    insert q0 c1.visited = c1.visited ∧ Reach R c.visited p q0 := by
  obtain ⟨hins, hcell, hnd, hQ, hsound, hclosed, hstamp, hunch⟩ := hinv
  obtain ⟨hq0v, hq0c, _, _, hq0r⟩ := hQ q0 (List.mem_cons_self q0 rest)
  obtain ⟨hq0rest, hndrest⟩ := List.nodup_cons.mp hnd
  have hveq : insert q0 c1.visited = c1.visited := Finset.insert_eq_self.mpr hq0v
  refine ⟨⟨?_, ?_, hndrest, hq0rest, ?_, hq0c, ?_, ?_, ?_, ?_, ?_⟩, hveq, hq0r⟩
  · show insert p c.visited ⊆ insert q0 c1.visited
    rw [hveq]
    exact hins
  · show insert q0 c1.visited ⊆ allCells R.h R.w
    rw [hveq]
    exact hcell
  · show q0 ∈ insert q0 c1.visited
    exact Finset.mem_insert_self q0 _
  · intro q hq
    obtain ⟨h1, h2, h3, h4, h5⟩ := hQ q (List.mem_cons_of_mem q0 hq)
    exact ⟨by rw [hveq]; exact h1, h2, h3, h4, h5⟩
  · intro q hq
    rw [hveq] at hq
    exact hsound q hq
  · intro q hq hqc hqQ hqne r hadr hvr hfr
    rw [hveq] at hq ⊢
    exact hclosed q hq hqc
      (by rw [List.mem_cons]; rintro (rfl | hc) <;> [exact hqne rfl; exact hqQ hc])
      r hadr hvr hfr
  · intro q hq hqc hqQ
    rw [hveq] at hq
    dsimp only
    by_cases hqq0 : q = q0
    · subst hqq0
      exact upd2_self _ _ _
    · rw [upd2_other _ _ _ _ hqq0]
      exact hstamp q hq hqc
        (by rw [List.mem_cons]; rintro (rfl | hc) <;> [exact hqq0 rfl; exact hqQ hc])
  · intro q hq
    dsimp only at hq ⊢
    have hqq0 : q ≠ q0 := by
      rintro rfl
      rcases hq with hq | hq | hq
      · rw [hveq] at hq
        exact hq hq0v
      · exact hq0c hq
      · exact hq0rest hq
    rw [upd2_other _ _ _ _ hqq0]
    apply hunch
    rcases hq with hq | hq | hq
    · rw [hveq] at hq
      exact Or.inl hq
    · exact Or.inr (Or.inl hq)
    · exact Or.inr (Or.inr (List.mem_cons_of_mem q0 hq))

/-- What remains true of the context when the BFS loop drains its queue. -/
def BfsPost (R : Raster) (lab : Nat) (p : Pos) (c : Fill) (c1 c' : Fill) : Prop :=
  c1.visited ⊆ c'.visited ∧ c'.visited ⊆ allCells R.h R.w ∧
  (∀ q : Pos, q ∈ c'.visited → q ∈ c.visited ∨ Reach R c.visited p q) ∧
  (∀ q : Pos, q ∈ c'.visited → q ∉ c.visited →
    ∀ r : Pos, Adj q r → validPos R.h R.w r.1 r.2 → R.data r.1 r.2 = 1 →
      r ∈ c'.visited) ∧
  (∀ q : Pos, q ∈ c'.visited → q ∉ c.visited → c'.labeled q.1 q.2 = lab) ∧
  (∀ q : Pos, (q ∉ c'.visited ∨ q ∈ c.visited) → c'.labeled q.1 q.2 = c.labeled q.1 q.2)

theorem bfsAux_cons_eq (R : Raster) (lab fuel : Nat) (q0 : Pos) (rest : List Pos)
    (c1 : Fill) :
    bfsAux R lab (fuel + 1) (q0 :: rest) c1 =
      bfsAux R lab fuel
        (bfsEnq R (bfsEnq R (bfsEnq R (bfsEnq R
          (⟨upd2 c1.labeled q0 lab, insert q0 c1.visited⟩, rest)
          (q0.1 + 1, q0.2)) (q0.1, q0.2 + 1)) (q0.1 - 1, q0.2)) (q0.1, q0.2 - 1)).2
        (bfsEnq R (bfsEnq R (bfsEnq R (bfsEnq R
          (⟨upd2 c1.labeled q0 lab, insert q0 c1.visited⟩, rest)
          (q0.1 + 1, q0.2)) (q0.1, q0.2 + 1)) (q0.1 - 1, q0.2)) (q0.1, q0.2 - 1)).1 := rfl

theorem bfsAux_loop (R : Raster) (lab : Nat) (p : Pos) (c : Fill) :
    ∀ fuel Q c1, BInv R lab p c c1 Q → Q.length + 2 * unvis R c1 < fuel →
      BfsPost R lab p c c1 (bfsAux R lab fuel Q c1) := by
  intro fuel
  induction fuel with
  | zero => intro Q c1 _ h; omega
  | succ n ih =>
    intro Q c1 hinv hfuel
    cases Q with
    | nil =>
      obtain ⟨hins, hcell, _, _, hsound, hclosed, hstamp, hunch⟩ := hinv
      refine ⟨Finset.Subset.refl _, hcell, hsound, ?_, ?_, ?_⟩
      · exact fun q hq hqc => hclosed q hq hqc (List.not_mem_nil q)
      · exact fun q hq hqc => hstamp q hq hqc (List.not_mem_nil q)
      · intro q hq
        apply hunch
        rcases hq with h | h
        · exact Or.inl h
        · exact Or.inr (Or.inl h)
    | cons q0 rest =>
      obtain ⟨hmid, hveq, hq0r⟩ := BInv_pop R lab p c q0 rest c1 hinv
      have hchain := bfs_enq_chain R lab p c q0 hq0r
        (⟨upd2 c1.labeled q0 lab, insert q0 c1.visited⟩, rest) hmid
      have hunv : unvis R (⟨upd2 c1.labeled q0 lab, insert q0 c1.visited⟩ : Fill) =
          unvis R c1 := by
        show (allCells R.h R.w \ insert q0 c1.visited).card = unvis R c1
        rw [hveq]
        rfl
      have hlen : (q0 :: rest).length = rest.length + 1 := rfl
      have hm := hchain.2.2
      rw [hunv] at hm
      have hpost := ih _ _ hchain.1 (by dsimp only at hm ⊢; omega)
      rw [bfsAux_cons_eq]
      refine ⟨?_, hpost.2.1, hpost.2.2.1, hpost.2.2.2.1, hpost.2.2.2.2.1,
        hpost.2.2.2.2.2⟩
      have hsub1 : c1.visited ⊆
          (⟨upd2 c1.labeled q0 lab, insert q0 c1.visited⟩ : Fill).visited := by
        show c1.visited ⊆ insert q0 c1.visited
        rw [hveq]
      exact Finset.Subset.trans hsub1 (Finset.Subset.trans hchain.2.1 hpost.1)

theorem bfs_fillSpec (R : Raster) (lab : Nat) (p : Pos) (c : Fill)
    (hpre : DfsPre R p c) :
    FillSpec R lab p c (bfsAux R lab (2 * (R.h * R.w) + 2) [p] c) := by
  obtain ⟨hvp, hfp, hnp, hcp⟩ := hpre
  have hpcell : p ∈ allCells R.h R.w := (mem_allCells _ _ p).mpr hvp
  have hmid0 : BMid R lab p c p (⟨upd2 c.labeled p lab, insert p c.visited⟩, []) := by
    refine ⟨Finset.Subset.refl _, ?_, List.nodup_nil, List.not_mem_nil p,
      Finset.mem_insert_self p _, hnp, ?_, ?_, ?_, ?_, ?_⟩
    · intro x hx
      rcases Finset.mem_insert.mp hx with rfl | hx'
      · exact hpcell
      · exact hcp hx'
    · intro q hq
      exact absurd hq (List.not_mem_nil q)
    · intro q hq
      rcases Finset.mem_insert.mp hq with rfl | hq'
      · exact Or.inr Relation.ReflTransGen.refl
      · exact Or.inl hq'
    · intro q hq hqc _ hqne
      rcases Finset.mem_insert.mp hq with rfl | hq'
      · exact absurd rfl hqne
      · exact absurd hq' hqc
    · intro q hq hqc _
      rcases Finset.mem_insert.mp hq with rfl | hq'
      · exact upd2_self _ _ _
      · exact absurd hq' hqc
    · intro q hq
      have hqp : q ≠ p := by
        rintro rfl
        rcases hq with hq | hq | hq
        · exact hq (Finset.mem_insert_self q _)
        · exact hnp hq
        · exact (List.not_mem_nil q) hq
      exact upd2_other _ _ _ _ hqp
  have hchain := bfs_enq_chain R lab p c p Relation.ReflTransGen.refl _ hmid0
  have hunv := unvis_insert R c p (upd2 c.labeled p lab) hpcell hnp
  have hbound := fuel_enough R c
  have hm := hchain.2.2
  have hz1 : ((⟨upd2 c.labeled p lab, insert p c.visited⟩ : Fill),
      ([] : List Pos)).2.length = 0 := rfl
  have hz2 : unvis R ((⟨upd2 c.labeled p lab, insert p c.visited⟩ : Fill),
      ([] : List Pos)).1 + 1 = unvis R c := hunv
  have hpost := bfsAux_loop R lab p c (2 * (R.h * R.w) + 1) _ _ hchain.1 (by omega)
  have heq : bfsAux R lab (2 * (R.h * R.w) + 2) [p] c =
      bfsAux R lab (2 * (R.h * R.w) + 1)
        (bfsEnq R (bfsEnq R (bfsEnq R (bfsEnq R
          (⟨upd2 c.labeled p lab, insert p c.visited⟩, ([] : List Pos))
          (p.1 + 1, p.2)) (p.1, p.2 + 1)) (p.1 - 1, p.2)) (p.1, p.2 - 1)).2
        (bfsEnq R (bfsEnq R (bfsEnq R (bfsEnq R
          (⟨upd2 c.labeled p lab, insert p c.visited⟩, ([] : List Pos))
          (p.1 + 1, p.2)) (p.1, p.2 + 1)) (p.1 - 1, p.2)) (p.1, p.2 - 1)).1 :=
    bfsAux_cons_eq R lab (2 * (R.h * R.w) + 1) p [] c
  rw [heq]
  obtain ⟨hmono, hcell, hsound, hclosed, hstamp, hunch⟩ := hpost
  have hpmem := hmono (hchain.2.1 (Finset.mem_insert_self p _))
  refine ⟨?_, hstamp, hunch, hcell⟩
  intro q
  constructor
  · exact hsound q
  · intro hq
    rcases hq with hq | hq
    · exact hmono (hchain.2.1 (Finset.mem_insert_of_mem hq))
    · exact reach_subset_of_closed R c.visited p _ hnp hpmem hclosed q hq

/-! ### The shared outer loop: equal outputs and the labeling invariant -/

theorem labelLoop_cons_eq (R : Raster) (fillFn : Nat → Pos → Fill → Fill)
    (p : Pos) (rest : List Pos) (s : LabState) :
    labelLoop R fillFn (p :: rest) s =
      if p ∉ s.fill.visited ∧ R.data p.1 p.2 = 1 then
        labelLoop R fillFn rest
          ⟨insert (s.label + 1) s.labels, s.label + 1, fillFn (s.label + 1) p s.fill⟩
      else labelLoop R fillFn rest s := rfl

/-- Any two fill routines meeting the fill contract give identical outer
loops — the heart of DFS/BFS equivalence. -/
theorem labelLoop_eq (R : Raster) (f1 f2 : Nat → Pos → Fill → Fill)
    (h1 : ∀ lab p c, DfsPre R p c → FillSpec R lab p c (f1 lab p c))
    (h2 : ∀ lab p c, DfsPre R p c → FillSpec R lab p c (f2 lab p c)) :
    ∀ (l : List Pos) (s : LabState),
      (∀ p ∈ l, validPos R.h R.w p.1 p.2) →
      s.fill.visited ⊆ allCells R.h R.w →
      labelLoop R f1 l s = labelLoop R f2 l s := by
  intro l
  induction l with
  | nil => intro s _ _; rfl
  | cons p rest ih =>
    intro s hvalid hcells
    rw [labelLoop_cons_eq, labelLoop_cons_eq]
    by_cases hg : p ∉ s.fill.visited ∧ R.data p.1 p.2 = 1
    · rw [if_pos hg, if_pos hg]
      have hpre : DfsPre R p s.fill :=
        ⟨hvalid p (List.mem_cons_self p rest), hg.2, hg.1, hcells⟩
      have hfe : f1 (s.label + 1) p s.fill = f2 (s.label + 1) p s.fill :=
        FillSpec_unique R (s.label + 1) p s.fill _ _
          (h1 (s.label + 1) p s.fill hpre) (h2 (s.label + 1) p s.fill hpre)
      rw [hfe]
      exact ih _ (fun q hq => hvalid q (List.mem_cons_of_mem p hq))
        (h2 (s.label + 1) p s.fill hpre).2.2.2
    · rw [if_neg hg, if_neg hg]
      exact ih _ (fun q hq => hvalid q (List.mem_cons_of_mem p hq)) hcells

/-- The two flood-fill labelers agree on every input, label sets and
label maps alike. -/
theorem dfs_eq_bfs (R : Raster) : region_growing_alg R = region_grow_bfs R := by
  unfold region_growing_alg region_grow_bfs
  rw [labelLoop_eq R _ _
    (fun lab p c hpre => dfs_fillSpec R lab p c hpre)
    (fun lab p c hpre => bfs_fillSpec R lab p c hpre)
    (scanAll R.h R.w) labInit
    (fun p hp => (mem_scanAll R.h R.w p).mp hp)
    (Finset.empty_subset _)]

/-- Invariant of the outer labeling loop after processing `done`: the
visited set is exactly the non-zero-labeled set, consists of in-bounds
foreground cells, covers the foreground of `done`, is closed under
foreground adjacency, and adjacent visited cells carry equal labels. -/
def LoopInv (R : Raster) (done : List Pos) (s : LabState) : Prop :=
  s.fill.visited ⊆ allCells R.h R.w ∧
  (∀ q ∈ s.fill.visited, validPos R.h R.w q.1 q.2 ∧ R.data q.1 q.2 = 1 ∧
    s.fill.labeled q.1 q.2 ≠ 0) ∧
  (∀ q : Pos, s.fill.labeled q.1 q.2 ≠ 0 → q ∈ s.fill.visited) ∧
  (∀ q ∈ done, validPos R.h R.w q.1 q.2 → R.data q.1 q.2 = 1 → q ∈ s.fill.visited) ∧
  (∀ q ∈ s.fill.visited, ∀ r : Pos, Adj q r → validPos R.h R.w r.1 r.2 →
    R.data r.1 r.2 = 1 → r ∈ s.fill.visited) ∧
  (∀ q r : Pos, q ∈ s.fill.visited → r ∈ s.fill.visited → Adj q r →
    s.fill.labeled q.1 q.2 = s.fill.labeled r.1 r.2)

theorem labelLoop_inv (R : Raster) (fillFn : Nat → Pos → Fill → Fill)
    (hfs : ∀ lab p c, DfsPre R p c → FillSpec R lab p c (fillFn lab p c)) :
    ∀ (todo done : List Pos) (s : LabState),
      (∀ p ∈ todo, validPos R.h R.w p.1 p.2) →
      LoopInv R done s →
      LoopInv R (done ++ todo) (labelLoop R fillFn todo s) := by
  intro todo
  induction todo with
  | nil =>
    intro done s _ hinv
    rw [List.append_nil]
    exact hinv
  | cons p rest ih =>
    intro done s hvalid hinv
    obtain ⟨hcells, hprops, hlabv, hcover, hclosed, hsame⟩ := hinv
    have hvp : validPos R.h R.w p.1 p.2 := hvalid p (List.mem_cons_self p rest)
    have hrearr : done ++ p :: rest = (done ++ [p]) ++ rest := by
      rw [List.append_assoc]
      rfl
    rw [labelLoop_cons_eq, hrearr]
    by_cases hg : p ∉ s.fill.visited ∧ R.data p.1 p.2 = 1
    · rw [if_pos hg]
      have hpre : DfsPre R p s.fill := ⟨hvp, hg.2, hg.1, hcells⟩
      obtain ⟨hviff, hstamp, hunch, hcell'⟩ := hfs (s.label + 1) p s.fill hpre
      have hVsub : s.fill.visited ⊆ (fillFn (s.label + 1) p s.fill).visited :=
        fun x hx => (hviff x).mpr (Or.inl hx)
      have hnewprops : ∀ q : Pos, Reach R s.fill.visited p q →
          validPos R.h R.w q.1 q.2 ∧ R.data q.1 q.2 = 1 ∧ q ∉ s.fill.visited :=
        fun q hq => Reach.props hvp hg.2 hg.1 hq
      apply ih (done ++ [p])
        ⟨insert (s.label + 1) s.labels, s.label + 1, fillFn (s.label + 1) p s.fill⟩
        (fun q hq => hvalid q (List.mem_cons_of_mem p hq))
      refine ⟨hcell', ?_, ?_, ?_, ?_, ?_⟩
      · intro q hq
        rcases (hviff q).mp hq with hq' | hq'
        · obtain ⟨h1, h2, h3⟩ := hprops q hq'
          exact ⟨h1, h2, by rw [hunch q (Or.inr hq')]; exact h3⟩
        · obtain ⟨h1, h2, h3⟩ := hnewprops q hq'
          refine ⟨h1, h2, ?_⟩
          rw [hstamp q hq h3]
          omega
      · intro q hq
        by_contra hqv
        have hqV : q ∉ s.fill.visited := fun hc => hqv (hVsub hc)
        rw [hunch q (Or.inl hqv)] at hq
        exact hqv (hVsub (hlabv q hq))
      · intro q hq hqv hqf
        rcases List.mem_append.mp hq with hq' | hq'
        · exact hVsub (hcover q hq' hqv hqf)
        · rw [List.mem_singleton.mp hq']
          exact (hviff p).mpr (Or.inr Relation.ReflTransGen.refl)
      · intro q hq r hadr hvr hfr
        rcases (hviff q).mp hq with hq' | hq'
        · exact hVsub (hclosed q hq' r hadr hvr hfr)
        · by_cases hrV : r ∈ s.fill.visited
          · exact hVsub hrV
          · apply (hviff r).mpr
            exact Or.inr (Relation.ReflTransGen.tail hq' ⟨hadr, hvr, hfr, hrV⟩)
      · intro q r hq hr hadr
        rcases (hviff q).mp hq with hq' | hq' <;> rcases (hviff r).mp hr with hr' | hr'
        · rw [hunch q (Or.inr hq'), hunch r (Or.inr hr')]
          exact hsame q r hq' hr' hadr
        · exfalso
          obtain ⟨h1, h2, h3⟩ := hnewprops r hr'
          exact h3 (hclosed q hq' r hadr h1 h2)
        · exfalso
          obtain ⟨h1, h2, h3⟩ := hnewprops q hq'
          exact h3 (hclosed r hr' q hadr.symm' h1 h2)
        · rw [hstamp q hq (hnewprops q hq').2.2, hstamp r hr (hnewprops r hr').2.2]
    · rw [if_neg hg]
      apply ih (done ++ [p]) s (fun q hq => hvalid q (List.mem_cons_of_mem p hq))
      refine ⟨hcells, hprops, hlabv, ?_, hclosed, hsame⟩
      intro q hq hqv hqf
      rcases List.mem_append.mp hq with hq' | hq'
      · exact hcover q hq' hqv hqf
      · rw [List.mem_singleton.mp hq'] at hqf ⊢
        by_contra hc
        exact hg ⟨hc, hqf⟩

theorem loopInv_init (R : Raster) : LoopInv R [] labInit := by
  refine ⟨Finset.empty_subset _, ?_, ?_, ?_, ?_, ?_⟩
  · intro q hq
    exact absurd hq (Finset.not_mem_empty q)
  · intro q hq
    exact absurd rfl hq
  · intro q hq
    exact absurd hq (List.not_mem_nil q)
  · intro q hq
    exact absurd hq (Finset.not_mem_empty q)
  · intro q r hq
    exact absurd hq (Finset.not_mem_empty q)

/-- The flood-fill contract of `region_growing_alg`'s final state. -/
theorem region_growing_final (R : Raster) :
    LoopInv R (scanAll R.h R.w)
      (labelLoop R (fun lab p c => dfsAux R lab (R.h * R.w + 1) p c)
        (scanAll R.h R.w) labInit) := by
  have := labelLoop_inv R _ (fun lab p c hpre => dfs_fillSpec R lab p c hpre)
    (scanAll R.h R.w) [] labInit
    (fun p hp => (mem_scanAll R.h R.w p).mp hp) (loopInv_init R)
  simpa using this

/-- Semantics of `region_growing_alg`'s label map: a cell gets a positive
label exactly when it is in-bounds foreground, and 4-adjacent foreground
cells get the same label. -/
theorem region_growing_props (R : Raster) :
    (∀ p : Pos, validPos R.h R.w p.1 p.2 →
      (0 < (region_growing_alg R).2 p.1 p.2 ↔ R.data p.1 p.2 = 1)) ∧
    (∀ p q : Pos, validPos R.h R.w p.1 p.2 → validPos R.h R.w q.1 q.2 →
      R.data p.1 p.2 = 1 → R.data q.1 q.2 = 1 → Adj p q →
      (region_growing_alg R).2 p.1 p.2 = (region_growing_alg R).2 q.1 q.2) := by
  obtain ⟨hcells, hprops, hlabv, hcover, hclosed, hsame⟩ := region_growing_final R
  have hmap : (region_growing_alg R).2 =
      (labelLoop R (fun lab p c => dfsAux R lab (R.h * R.w + 1) p c)
        (scanAll R.h R.w) labInit).fill.labeled := rfl
  have hvisited : ∀ p : Pos, validPos R.h R.w p.1 p.2 → R.data p.1 p.2 = 1 →
      p ∈ (labelLoop R (fun lab p c => dfsAux R lab (R.h * R.w + 1) p c)
        (scanAll R.h R.w) labInit).fill.visited := by
    intro p hv hf
    exact hcover p ((mem_scanAll R.h R.w p).mpr hv) hv hf
  constructor
  · intro p hv
    rw [hmap]
    constructor
    · intro hpos
      exact (hprops p (hlabv p (by omega))).2.1
    · intro hf
      have := (hprops p (hvisited p hv hf)).2.2
      omega
  · intro p q hvp hvq hfp hfq hadj
    exact hsame p q (hvisited p hvp hfp) (hvisited q hvq hfq) hadj

theorem binary_cases {R : Raster} (hbin : Binary R) {p : Pos}
    (hv : validPos R.h R.w p.1 p.2) :
    R.data p.1 p.2 = 0 ∨ R.data p.1 p.2 = 1 := by
  obtain ⟨h1, h2, h3, h4⟩ := hv
  have hi : ((p.1.toNat : Nat) : Int) = p.1 := Int.toNat_of_nonneg h1
  have hj : ((p.2.toNat : Nat) : Int) = p.2 := Int.toNat_of_nonneg h3
  have hb := hbin p.1.toNat (Finset.mem_range.mpr (by omega)) p.2.toNat
    (Finset.mem_range.mpr (by omega))
  rwa [hi, hj] at hb

/-- C10: `region_growing_alg` and `region_grow_bfs` produce identical
outputs on every input raster — the same label set and the same label map
at every position. -/
theorem dfs_bfs_outputs_identical (R : Raster) :
    (region_growing_alg R).1 = (region_grow_bfs R).1 ∧
    ∀ p : Pos, (region_growing_alg R).2 p.1 p.2 = (region_grow_bfs R).2 p.1 p.2 := by
  rw [dfs_eq_bfs]
  exact ⟨rfl, fun _ => rfl⟩

/-- C2 (amended): the DFS and BFS flood-fill labelers induce the same
partition of pixels (two pixels share a DFS label exactly when they share a
BFS label); the two-pass labeler is excluded, since its up-left diagonal
rule can merge diagonally-touching components (see the diagonal raster). -/
theorem dfs_bfs_partitions_identical (R : Raster) (p q : Pos) :
    ((region_growing_alg R).2 p.1 p.2 = (region_growing_alg R).2 q.1 q.2 ↔
      (region_grow_bfs R).2 p.1 p.2 = (region_grow_bfs R).2 q.1 q.2) := by
  rw [dfs_eq_bfs]

/-- C4: in all three labelers, an in-bounds cell of a binary raster receives
a positive label exactly when it is a foreground (value-1) cell. -/
theorem positive_label_iff_foreground (R : Raster) (hbin : Binary R) (p : Pos)
    (hv : validPos R.h R.w p.1 p.2) :
    (0 < (region_growing_alg R).2 p.1 p.2 ↔ R.data p.1 p.2 = 1) ∧
    (0 < (region_grow_bfs R).2 p.1 p.2 ↔ R.data p.1 p.2 = 1) ∧
    (∀ ls lab, seq_label_alg R = some (ls, lab) →
      (0 < lab p.1 p.2 ↔ R.data p.1 p.2 = 1)) := by
  have hdfs := (region_growing_props R).1 p hv
  refine ⟨hdfs, by rw [← dfs_eq_bfs]; exact hdfs, ?_⟩
  intro ls lab hsl
  obtain ⟨ls', lab', hsl', hpos', hadj'⟩ := seq_label_spec R
  rw [hsl] at hsl'
  injection hsl' with h
  obtain ⟨rfl, rfl⟩ := Prod.mk.injEq .. ▸ h
  have hiff := hpos' p hv
  rcases binary_cases hbin hv with hd | hd <;> rw [hd] at hiff ⊢ <;> constructor <;>
    intro hx
  · exact absurd ((hiff.mp hx)) (by omega)
  · exact absurd hx (by omega)
  · rfl
  · exact hiff.mpr (by omega)

/-- C5: in all three labelers, two 4-adjacent in-bounds foreground cells
always receive the same label. -/
theorem adjacent_foreground_same_label (R : Raster) (p q : Pos)
    (hvp : validPos R.h R.w p.1 p.2) (hvq : validPos R.h R.w q.1 q.2)
    (hfp : R.data p.1 p.2 = 1) (hfq : R.data q.1 q.2 = 1) (hadj : Adj p q) :
    (region_growing_alg R).2 p.1 p.2 = (region_growing_alg R).2 q.1 q.2 ∧
    (region_grow_bfs R).2 p.1 p.2 = (region_grow_bfs R).2 q.1 q.2 ∧
    ∀ ls lab, seq_label_alg R = some (ls, lab) → lab p.1 p.2 = lab q.1 q.2 := by
  have hdfs := (region_growing_props R).2 p q hvp hvq hfp hfq hadj
  refine ⟨hdfs, by rw [← dfs_eq_bfs]; exact hdfs, ?_⟩
  intro ls lab hsl
  obtain ⟨ls', lab', hsl', hpos', hadj'⟩ := seq_label_spec R
  rw [hsl] at hsl'
  injection hsl' with h
  obtain ⟨rfl, rfl⟩ := Prod.mk.injEq .. ▸ h
  exact hadj' p q hvp hvq (by omega) (by omega) hadj

theorem positive_label_iff_foreground_witness :
    Binary diagRaster ∧ validPos diagRaster.h diagRaster.w 1 1 ∧
    (0 < (region_growing_alg diagRaster).2 1 1 ↔ diagRaster.data 1 1 = 1) :=
  ⟨by decide, by decide,
    (positive_label_iff_foreground diagRaster (by decide) (1, 1) (by decide)).1⟩

set_option maxRecDepth 4096 in
theorem adjacent_foreground_same_label_witness :
    validPos block55.h block55.w 1 1 ∧ validPos block55.h block55.w 1 2 ∧
    block55.data 1 1 = 1 ∧ block55.data 1 2 = 1 ∧ Adj (1, 1) (1, 2) ∧
    (region_growing_alg block55).2 1 1 = (region_growing_alg block55).2 1 2 :=
  ⟨by decide, by decide, by decide, by decide, by decide,
    (adjacent_foreground_same_label block55 (1, 1) (1, 2) (by decide) (by decide)
      (by decide) (by decide) (by decide)).1⟩

end BinSeg
